import Mathlib

/-!
Verification of the `rhh` Robin Hood hash map (`src/lib.rs`).

The development shallowly embeds the Rust source: `u64` arithmetic becomes
`Nat` arithmetic with explicit reduction modulo `2 ^ 64`, the generic key
type `K : Eq + Hash + AsByte` becomes a type `K` with `DecidableEq K`
together with a byte view `ab : K → List Nat`, and the unbounded probe
loops become fuel-indexed functions returning `Option` (`none` models
divergence / a panic).  All map operations that can panic or diverge in
Rust therefore return `Option`.
-/

namespace Rhh

/-- Two to the sixty-fourth power, the modulus of Rust `u64` arithmetic. -/
def two64 : Nat := 18446744073709551616

/-- Two to the sixty-third power, the first `u64` value that is negative when
reinterpreted as `i64`. -/
def two63 : Nat := 9223372036854775808

/-- Modelled from the spec: first xxHash64 prime (the hash itself lives in the
external `twox_hash` crate, not in this repository; spec section 4.1 fixes the
algorithm to xxHash64 with seed 0). -/
def prime1 : Nat := 11400714785074694791

/-- Modelled from the spec: second xxHash64 prime. -/
def prime2 : Nat := 14029467366897019727

/-- Modelled from the spec: third xxHash64 prime. -/
def prime3 : Nat := 1609587929392839161

/-- Modelled from the spec: fourth xxHash64 prime. -/
def prime4 : Nat := 9650029242287828579

/-- Modelled from the spec: fifth xxHash64 prime. -/
def prime5 : Nat := 2870177450012600261

/-- Left rotation of a 64-bit value. -/
def rotl64 (x r : Nat) : Nat := ((x <<< r) ||| (x >>> (64 - r))) % two64

/-- Little-endian read of a byte list into a natural number. -/
def readLE : List Nat → Nat
  | [] => 0
  | b :: bs => b + 256 * readLE bs

/-- Modelled from the spec: the xxHash64 round function. -/
def xxh64round (acc lane : Nat) : Nat :=
  rotl64 ((acc + lane * prime2) % two64) 31 * prime1 % two64

/-- Modelled from the spec: the xxHash64 accumulator merge step. -/
def xxh64merge (acc accn : Nat) : Nat :=
  ((acc ^^^ xxh64round 0 accn) * prime1 + prime4) % two64

/-- Modelled from the spec: the xxHash64 32-byte stripe loop (fuelled). -/
def xxh64stripes : Nat → Nat × Nat × Nat × Nat → List Nat →
    (Nat × Nat × Nat × Nat) × List Nat
  | 0, accs, bs => (accs, bs)
  | fuel + 1, accs, bs =>
    if 32 ≤ bs.length then
      let a1 := xxh64round accs.1 (readLE (bs.take 8))
      let a2 := xxh64round accs.2.1 (readLE ((bs.drop 8).take 8))
      let a3 := xxh64round accs.2.2.1 (readLE ((bs.drop 16).take 8))
      let a4 := xxh64round accs.2.2.2 (readLE ((bs.drop 24).take 8))
      xxh64stripes fuel (a1, a2, a3, a4) (bs.drop 32)
    else (accs, bs)

/-- Modelled from the spec: the xxHash64 8-byte tail loop (fuelled). -/
def xxh64tail8 : Nat → Nat → List Nat → Nat × List Nat
  | 0, acc, bs => (acc, bs)
  | fuel + 1, acc, bs =>
    if 8 ≤ bs.length then
      xxh64tail8 fuel
        ((rotl64 (acc ^^^ xxh64round 0 (readLE (bs.take 8))) 27 * prime1 + prime4) % two64)
        (bs.drop 8)
    else (acc, bs)

/-- Modelled from the spec: the xxHash64 4-byte tail loop (fuelled). -/
def xxh64tail4 : Nat → Nat → List Nat → Nat × List Nat
  | 0, acc, bs => (acc, bs)
  | fuel + 1, acc, bs =>
    if 4 ≤ bs.length then
      xxh64tail4 fuel
        ((rotl64 (acc ^^^ readLE (bs.take 4) * prime1 % two64) 23 * prime2 + prime3) % two64)
        (bs.drop 4)
    else (acc, bs)

/-- Modelled from the spec: the xxHash64 byte-at-a-time tail loop (fuelled). -/
def xxh64tail1 : Nat → Nat → List Nat → Nat
  | 0, acc, _ => acc
  | _ + 1, acc, [] => acc
  | fuel + 1, acc, b :: bs =>
    xxh64tail1 fuel (rotl64 (acc ^^^ b * prime5 % two64) 11 * prime1 % two64) bs

/-- Modelled from the spec: the xxHash64 final avalanche. -/
def xxh64avalanche (acc : Nat) : Nat :=
  let a1 := acc ^^^ (acc >>> 33)
  let a2 := a1 * prime2 % two64
  let a3 := a2 ^^^ (a2 >>> 29)
  let a4 := a3 * prime3 % two64
  a4 ^^^ (a4 >>> 32)

/-- Modelled from the spec: full xxHash64 of a byte sequence with the given
seed.  This is the raw hash that `hash_key` normalizes; the spec (section 4.1)
requires the exact xxHash64 algorithm with seed 0. -/
def xxh64 (seed : Nat) (input : List Nat) : Nat :=
  let n := input.length
  let start : Nat × List Nat :=
    if 32 ≤ n then
      let a0 := ((seed + prime1 + prime2) % two64, (seed + prime2) % two64,
                 seed % two64, (seed + (two64 - prime1)) % two64)
      let sr := xxh64stripes n a0 input
      let acc0 := (rotl64 sr.1.1 1 + rotl64 sr.1.2.1 7 + rotl64 sr.1.2.2.1 12 +
                   rotl64 sr.1.2.2.2 18) % two64
      let acc1 := xxh64merge acc0 sr.1.1
      let acc2 := xxh64merge acc1 sr.1.2.1
      let acc3 := xxh64merge acc2 sr.1.2.2.1
      let acc4 := xxh64merge acc3 sr.1.2.2.2
      (acc4, sr.2)
    else ((seed + prime5) % two64, input)
  let withLen := (start.1 + n) % two64
  let t8 := xxh64tail8 n withLen start.2
  let t4 := xxh64tail4 n t8.1 t8.2
  xxh64avalanche (xxh64tail1 n t4.1 t4.2)

/-- Embedding of `hash_key` (`lib.rs:349`): xxHash64 with seed 0 of the key's
byte view, then the zero and sign-bit normalization.  The raw-pointer signed
reinterpretation of the source is `two63 ≤ h`, and `0 - *h_ptr` is wrapping
two's-complement negation, i.e. `(two64 - h) % two64`. -/
def hash_key {K : Type} (ab : K → List Nat) (key : K) : Nat :=
  let h := xxh64 0 (ab key)
  if h = 0 then 1
  else if two63 ≤ h then (two64 - h) % two64
  else h

/-- Embedding of `distance` (`lib.rs:374`): the probe distance of `hash` when
stored in slot `i` of a table with the given power-of-two capacity. -/
def distance (hash i capacity : Nat) : Nat :=
  (i + capacity - (hash &&& (capacity - 1))) &&& (capacity - 1)

/-- Embedding of `pow2`'s loop (`lib.rs:382`): doubles `i` until it reaches
`v`; `none` models the `panic!` once `i` escapes the `i < 2^62` guard. -/
def pow2_loop (v : Nat) : Nat → Nat → Option Nat
  | _, 0 => none
  | i, fuel + 1 =>
    if i < 2 ^ 62 then
      if v ≤ i then some i else pow2_loop v (i * 2) fuel
    else none

/-- Embedding of `pow2` (`lib.rs:382`): the next power of two that is at least
`v` (and at least 2); `none` models the overflow `panic!`.  The fuel 62 is
enough for the loop to reach its own panic branch, so `none` occurs exactly
where the source panics. -/
def pow2 (v : Nat) : Option Nat := pow2_loop v 2 62

/-- Embedding of `HashElem` (`lib.rs:34`). -/
structure HashElem (K V : Type) where
  dist : Nat
  key : K
  value : V
  hash : Nat

/-- Embedding of the `HashMap` struct (`lib.rs:73`). -/
structure HashMap (K V : Type) where
  elems : List (Option (HashElem K V))
  len : Nat
  capacity : Nat
  threshold : Nat
  mask : Nat
  load_factor : Nat

namespace HashMap

variable {K V : Type} [DecidableEq K]

/-- Embedding of `with_capacity_and_factor` (`lib.rs:98`).  Note that the
source sizes the slot vector and computes `threshold` and `mask` from the
*requested* capacity while the `capacity` field gets `pow2(capacity)`. -/
def with_capacity_and_factor (K V : Type) (capacity load_factor : Nat) :
    Option (HashMap K V) :=
  (pow2 capacity).map fun p =>
    { elems := List.replicate capacity none
      len := 0
      capacity := p
      threshold := capacity * load_factor / 100
      mask := capacity - 1
      load_factor := load_factor }

/-- Embedding of `with_capacity` (`lib.rs:94`). -/
def with_capacity (K V : Type) (capacity : Nat) : Option (HashMap K V) :=
  with_capacity_and_factor K V capacity 90

/-- Embedding of `new` (`lib.rs:90`). -/
def new (K V : Type) : Option (HashMap K V) := with_capacity K V 256

/-- Embedding of the probe loop of `insert_raw` (`lib.rs:176`), fuelled;
`none` models non-termination of the Rust `loop`.  The state is the slot
list, the current position, the running probe distance, and the pending
entry; the result records the updated slots and whether an existing key was
overwritten. -/
def insert_raw_loop (cap mask : Nat) :
    Nat → List (Option (HashElem K V)) → Nat → Nat → HashElem K V →
    Option (List (Option (HashElem K V)) × Bool)
  | 0, _, _, _, _ => none
  | fuel + 1, elems, pos, dist, entry0 =>
    let entry : HashElem K V := { entry0 with dist := dist }
    match elems.getD pos none with
    | some e =>
      if e.key = entry.key then some (elems.set pos (some entry), true)
      else
        let elem_dist := distance e.hash pos cap
        if elem_dist < dist then
          insert_raw_loop cap mask fuel
            (elems.set pos (some { entry with dist := elem_dist }))
            ((pos + 1) &&& mask) (elem_dist + 1) e
        else
          insert_raw_loop cap mask fuel elems ((pos + 1) &&& mask) (dist + 1) entry
    | none => some (elems.set pos (some entry), false)

/-- Embedding of `insert_raw` (`lib.rs:169`).  The fuel `m.capacity` is
enough whenever the table has an empty slot (see the termination theorem);
with no empty slot and an absent key the source loop spins forever, which
the model reports as `none`. -/
def insert_raw (m : HashMap K V) (hash : Nat) (key : K) (val : V) :
    Option (HashMap K V × Bool) :=
  (insert_raw_loop m.capacity m.mask m.capacity m.elems (hash &&& m.mask) 0
      ⟨0, key, val, hash⟩).map
    fun r => ({ m with elems := r.1, len := if r.2 then m.len else m.len + 1 }, r.2)

/-- Embedding of `grow` (`lib.rs:153`): allocate a double-capacity table with
the same load factor and reinsert every live entry, in slot order, by its
stored hash. -/
def grow (m : HashMap K V) : Option (HashMap K V) :=
  (with_capacity_and_factor K V (m.capacity * 2) m.load_factor).bind fun fresh =>
    m.elems.foldlM
      (fun acc oe =>
        match oe with
        | some e => (insert_raw acc e.hash e.key e.value).map Prod.fst
        | none => some acc)
      fresh

/-- Embedding of the probe loop of `index` (`lib.rs:222`), fuelled; the outer
`Option` models non-termination, the inner one is the source's return value. -/
def index_loop (cap mask hsh : Nat) (key : K) :
    Nat → List (Option (HashElem K V)) → Nat → Nat → Option (Option Nat)
  | 0, _, _, _ => none
  | fuel + 1, elems, pos, dist =>
    match elems.getD pos none with
    | none => some none
    | some e =>
      if distance e.hash pos cap < dist then some none
      else if e.hash = hsh ∧ e.key = key then some (some pos)
      else index_loop cap mask hsh key fuel elems ((pos + 1) &&& mask) (dist + 1)

/-- Embedding of `index` (`lib.rs:213`).  The fuel `m.capacity + 1` always
suffices: once `dist` reaches `capacity` it exceeds every stored probe
distance and the loop returns. -/
def index (ab : K → List Nat) (m : HashMap K V) (key : K) : Option (Option Nat) :=
  let hsh := hash_key ab key
  index_loop m.capacity m.mask hsh key (m.capacity + 1) m.elems (hsh &&& m.mask) 0

/-- Embedding of `get` (`lib.rs:111`). -/
def get (ab : K → List Nat) (m : HashMap K V) (key : K) : Option V :=
  match index ab m key with
  | some (some i) => (m.elems.getD i none).map fun e => e.value
  | _ => none

/-- Embedding of `get_mut` (`lib.rs:120`): same lookup as `get`; the model
returns the value the mutable reference would point at. -/
def get_mut (ab : K → List Nat) (m : HashMap K V) (key : K) : Option V :=
  match index ab m key with
  | some (some i) => (m.elems.getD i none).map fun e => e.value
  | _ => none

/-- Embedding of `insert` (`lib.rs:143`): grow when `len > threshold`, then
raw-insert the freshly hashed key, discarding the overwrite flag. -/
def insert (ab : K → List Nat) (m : HashMap K V) (key : K) (val : V) :
    Option (HashMap K V) :=
  (if m.threshold < m.len then grow m else some m).bind fun m1 =>
    (insert_raw m1 (hash_key ab key) key val).map Prod.fst

/-- Runs a sequence of `insert` calls starting from an optionally constructed
map (sequencing through `Option`, so a panic or divergence anywhere aborts). -/
def insertAllFrom (ab : K → List Nat) (start : Option (HashMap K V))
    (ops : List (K × V)) : Option (HashMap K V) :=
  start.bind fun m => ops.foldlM (fun acc kv => insert ab acc kv.1 kv.2) m

end HashMap

/-- The last value paired with `q` in a list of insert operations. -/
def lastVal {K V : Type} [DecidableEq K] (ops : List (K × V)) (q : K) : Option V :=
  ops.foldl (fun acc kv => if kv.1 = q then some kv.2 else acc) none

/-- The slot index reached after walking `t` steps forward (with wraparound)
from the home slot of hash `h` in a table of capacity `cap`. -/
def pathPos (h t cap : Nat) : Nat := (h % cap + t) % cap

section PathArith

variable {cap w : Nat} (hcap : cap = 2 ^ w)

theorem cap_pos (hcap : cap = 2 ^ w) : 0 < cap := hcap ▸ Nat.pos_pow_of_pos w (by omega)

theorem land_mask (hcap : cap = 2 ^ w) (x : Nat) : x &&& (cap - 1) = x % cap := by
  subst hcap; exact Nat.and_pow_two_sub_one_eq_mod x w

theorem distance_eq (hcap : cap = 2 ^ w) (h i : Nat) :
    distance h i cap = (i + cap - h % cap) % cap := by
  unfold distance; rw [land_mask hcap, land_mask hcap]

theorem distance_lt (hcap : cap = 2 ^ w) (h i : Nat) : distance h i cap < cap := by
  rw [distance_eq hcap]; exact Nat.mod_lt _ (cap_pos hcap)

theorem pathPos_lt (hcap : cap = 2 ^ w) (h t : Nat) : pathPos h t cap < cap :=
  Nat.mod_lt _ (cap_pos hcap)

theorem pathPos_zero (h : Nat) : pathPos h 0 cap = h % cap := by
  unfold pathPos; rw [Nat.add_zero, Nat.mod_mod_of_dvd _ dvd_rfl]

theorem distance_pathPos (hcap : cap = 2 ^ w) (h t : Nat) (ht : t < cap) :
    distance h (pathPos h t cap) cap = t := by
  have hc := cap_pos hcap
  have ha : h % cap < cap := Nat.mod_lt _ hc
  rw [distance_eq hcap]
  unfold pathPos
  rcases Nat.lt_or_ge (h % cap + t) cap with hlt | hge
  · rw [Nat.mod_eq_of_lt hlt, show h % cap + t + cap - h % cap = t + cap by omega,
      Nat.add_mod_right, Nat.mod_eq_of_lt ht]
  · have h2 : (h % cap + t) % cap = h % cap + t - cap := by
      rw [Nat.mod_eq_sub_mod hge, Nat.mod_eq_of_lt (by omega)]
    rw [h2, show h % cap + t - cap + cap - h % cap = t by omega, Nat.mod_eq_of_lt ht]

theorem pathPos_distance (hcap : cap = 2 ^ w) (h i : Nat) (hi : i < cap) :
    pathPos h (distance h i cap) cap = i := by
  have hc := cap_pos hcap
  have ha : h % cap < cap := Nat.mod_lt _ hc
  rw [distance_eq hcap]
  unfold pathPos
  rcases Nat.lt_or_ge i (h % cap) with hlt | hge
  · rw [Nat.mod_eq_of_lt (show i + cap - h % cap < cap by omega),
      show h % cap + (i + cap - h % cap) = i + cap by omega, Nat.add_mod_right,
      Nat.mod_eq_of_lt hi]
  · have h2 : (i + cap - h % cap) % cap = i - h % cap := by
      rw [show i + cap - h % cap = i - h % cap + cap by omega, Nat.add_mod_right,
        Nat.mod_eq_of_lt (by omega)]
    rw [h2, show h % cap + (i - h % cap) = i by omega, Nat.mod_eq_of_lt hi]

theorem pathPos_succ (hcap : cap = 2 ^ w) (h t : Nat) :
    (pathPos h t cap + 1) &&& (cap - 1) = pathPos h (t + 1) cap := by
  rw [land_mask hcap]
  unfold pathPos
  rw [Nat.mod_add_mod, Nat.add_assoc]

theorem pathPos_inj (hcap : cap = 2 ^ w) (h : Nat) {s t : Nat} (hs : s < cap)
    (ht : t < cap) (heq : pathPos h s cap = pathPos h t cap) : s = t := by
  have h1 := distance_pathPos hcap h s hs
  have h2 := distance_pathPos hcap h t ht
  rw [← h1, ← h2, heq]

end PathArith

section ListHelpers

variable {α : Type}

theorem getD_set_self (l : List α) (n : Nat) (a d : α) (h : n < l.length) :
    (l.set n a).getD n d = a := by
  simp [List.getD, List.getElem?_set_self, h]

theorem getD_set_ne (l : List α) (n m : Nat) (a d : α) (h : n ≠ m) :
    (l.set n a).getD m d = l.getD m d := by
  simp [List.getD, List.getElem?_set_ne, h]

theorem lt_length_of_getD_some {β : Type} (l : List (Option β)) (n : Nat) (x : β)
    (h : l.getD n none = some x) : n < l.length := by
  by_contra hn
  rw [List.getD_eq_default l none (by omega)] at h
  exact Option.noConfusion h

theorem getD_replicate_none {β : Type} (n i : Nat) :
    (List.replicate n (none : Option β)).getD i none = none := by
  rcases Nat.lt_or_ge i n with h | h
  · rw [List.getD_eq_getElem _ _ (by simpa using h), List.getElem_replicate]
  · exact List.getD_eq_default _ _ (by simpa using h)

/-- Number of occupied slots of a slot list. -/
def occL {β : Type} (l : List (Option β)) : Nat := l.countP Option.isSome

theorem occL_nil {β : Type} : occL ([] : List (Option β)) = 0 := rfl

theorem occL_cons {β : Type} (o : Option β) (l : List (Option β)) :
    occL (o :: l) = occL l + (if o.isSome then 1 else 0) := by
  unfold occL
  rw [List.countP_cons]

theorem occL_replicate {β : Type} (n : Nat) :
    occL (List.replicate n (none : Option β)) = 0 := by
  induction n with
  | zero => rfl
  | succ k ih => rw [List.replicate_succ, occL_cons, ih]; rfl

theorem occL_set_some_of_some {β : Type} (l : List (Option β)) (n : Nat) (a e : β)
    (h : l.getD n none = some e) : occL (l.set n (some a)) = occL l := by
  induction l generalizing n with
  | nil => simp [List.getD] at h
  | cons o t ih =>
    cases n with
    | zero =>
      simp only [List.getD_cons_zero] at h
      subst h
      rw [List.set_cons_zero, occL_cons, occL_cons]
      simp
    | succ k =>
      simp only [List.getD_cons_succ] at h
      rw [List.set_cons_succ, occL_cons, occL_cons, ih k h]

theorem occL_set_some_of_none {β : Type} (l : List (Option β)) (n : Nat) (a : β)
    (hn : n < l.length) (h : l.getD n none = none) :
    occL (l.set n (some a)) = occL l + 1 := by
  induction l generalizing n with
  | nil => simp at hn
  | cons o t ih =>
    cases n with
    | zero =>
      simp only [List.getD_cons_zero] at h
      subst h
      rw [List.set_cons_zero, occL_cons, occL_cons]
      simp
    | succ k =>
      simp only [List.getD_cons_succ] at h
      simp only [List.length_cons, Nat.succ_lt_succ_iff] at hn
      rw [List.set_cons_succ, occL_cons, occL_cons, ih k hn h]
      omega

end ListHelpers

section Invariants

variable {K V : Type} [DecidableEq K]

open HashMap

/-- The triple `(q, v, h)` is stored in some occupied slot. -/
def HasPair (elems : List (Option (HashElem K V))) (q : K) (v : V) (h : Nat) : Prop :=
  ∃ i e, elems.getD i none = some e ∧ e.key = q ∧ e.value = v ∧ e.hash = h

/-- The triple `(q, v, h)` is stored in some occupied slot other than `pos`. -/
def HasPairOff (elems : List (Option (HashElem K V))) (pos : Nat) (q : K) (v : V)
    (h : Nat) : Prop :=
  ∃ i e, i ≠ pos ∧ elems.getD i none = some e ∧ e.key = q ∧ e.value = v ∧ e.hash = h

/-- Every stored hash is the hash of the stored key. -/
def HashOK (ab : K → List Nat) (elems : List (Option (HashElem K V))) : Prop :=
  ∀ i e, elems.getD i none = some e → e.hash = hash_key ab e.key

/-- Stored keys are pairwise distinct. -/
def Uniq (elems : List (Option (HashElem K V))) : Prop :=
  ∀ i j e f, elems.getD i none = some e → elems.getD j none = some f → i ≠ j →
    e.key ≠ f.key

/-- Every prefix of the probe path of a stored entry is occupied, by entries
that have probed at least as far as that point; this is the invariant that
makes `index`'s early termination sound and lookups complete. -/
def Reach (elems : List (Option (HashElem K V))) (cap : Nat) : Prop :=
  ∀ i e, elems.getD i none = some e → ∀ t, t < distance e.hash i cap →
    ∃ f, elems.getD (pathPos e.hash t cap) none = some f ∧
      t ≤ distance f.hash (pathPos e.hash t cap) cap

/-- Every stored `dist` field is at most the entry's true probe distance. -/
def DistLE (elems : List (Option (HashElem K V))) (cap : Nat) : Prop :=
  ∀ i e, elems.getD i none = some e → e.dist ≤ distance e.hash i cap

theorem hasPair_set_some {elems : List (Option (HashElem K V))} {pos : Nat}
    (hpos : pos < elems.length) (x : HashElem K V) (q : K) (v : V) (h : Nat) :
    HasPair (elems.set pos (some x)) q v h ↔
      ((q = x.key ∧ v = x.value ∧ h = x.hash) ∨ HasPairOff elems pos q v h) := by
  constructor
  · rintro ⟨i, e, hget, hk, hv, hh⟩
    rcases eq_or_ne i pos with rfl | hne
    · rw [getD_set_self _ _ _ _ hpos] at hget
      cases hget
      exact Or.inl ⟨hk.symm, hv.symm, hh.symm⟩
    · rw [getD_set_ne _ _ _ _ _ (Ne.symm hne)] at hget
      exact Or.inr ⟨i, e, hne, hget, hk, hv, hh⟩
  · rintro (⟨rfl, rfl, rfl⟩ | ⟨i, e, hne, hget, hk, hv, hh⟩)
    · exact ⟨pos, x, getD_set_self _ _ _ _ hpos, rfl, rfl, rfl⟩
    · exact ⟨i, e, by rw [getD_set_ne _ _ _ _ _ (Ne.symm hne)]; exact hget, hk, hv, hh⟩

theorem hasPairOff_of_hasPair {elems : List (Option (HashElem K V))} {pos : Nat}
    {e : HashElem K V} (hU : Uniq elems) (hpos : elems.getD pos none = some e)
    {q : K} {v : V} {h : Nat} (hq : q ≠ e.key) :
    HasPair elems q v h → HasPairOff elems pos q v h := by
  rintro ⟨i, f, hget, hk, hv, hh⟩
  refine ⟨i, f, ?_, hget, hk, hv, hh⟩
  rintro rfl
  rw [hget] at hpos
  cases hpos
  exact hq hk.symm

theorem hasPair_of_hasPairOff {elems : List (Option (HashElem K V))} {pos : Nat}
    {q : K} {v : V} {h : Nat} :
    HasPairOff elems pos q v h → HasPair elems q v h := by
  rintro ⟨i, e, _, hget, hk, hv, hh⟩
  exact ⟨i, e, hget, hk, hv, hh⟩

theorem hasPair_unique {elems : List (Option (HashElem K V))} {pos : Nat}
    {e : HashElem K V} (hU : Uniq elems) (hpos : elems.getD pos none = some e)
    {v : V} {h : Nat} : HasPair elems e.key v h → v = e.value ∧ h = e.hash := by
  rintro ⟨i, f, hget, hk, hv, hh⟩
  rcases eq_or_ne i pos with rfl | hne
  · rw [hget] at hpos
    cases hpos
    exact ⟨hv.symm, hh.symm⟩
  · exact absurd hk (hU i pos f e hget hpos hne)

theorem hasPairOff_not_of_fresh {elems : List (Option (HashElem K V))} {pos : Nat}
    {q : K} {v : V} {h : Nat} (hfresh : ∀ i e, elems.getD i none = some e → e.key ≠ q) :
    ¬ HasPairOff elems pos q v h := by
  rintro ⟨i, e, _, hget, hk, _, _⟩
  exact hfresh i e hget hk

theorem hasPair_not_of_fresh {elems : List (Option (HashElem K V))}
    {q : K} {v : V} {h : Nat} (hfresh : ∀ i e, elems.getD i none = some e → e.key ≠ q) :
    ¬ HasPair elems q v h := by
  rintro ⟨i, e, hget, hk, _, _⟩
  exact hfresh i e hget hk

end Invariants

section CaseB

variable {K V : Type} [DecidableEq K]

open HashMap

theorem insert_raw_loop_fresh (ab : K → List Nat) {cap w : Nat} (hcap : cap = 2 ^ w) :
    ∀ (fuel : Nat) (elems : List (Option (HashElem K V))) (dist : Nat)
      (entry : HashElem K V) (res : List (Option (HashElem K V)) × Bool),
      elems.length = cap →
      HashOK ab elems → Uniq elems → Reach elems cap → DistLE elems cap →
      entry.hash = hash_key ab entry.key →
      (∀ i e, elems.getD i none = some e → e.key ≠ entry.key) →
      dist + fuel ≤ cap →
      (∀ t, t < dist → ∃ f,
          elems.getD (pathPos entry.hash t cap) none = some f ∧
          t ≤ distance f.hash (pathPos entry.hash t cap) cap) →
      insert_raw_loop cap (cap - 1) fuel elems (pathPos entry.hash dist cap) dist entry
        = some res →
      res.2 = false ∧ res.1.length = cap ∧ HashOK ab res.1 ∧ Uniq res.1 ∧
        Reach res.1 cap ∧ DistLE res.1 cap ∧ occL res.1 = occL elems + 1 ∧
        (∀ q v h, HasPair res.1 q v h ↔
          ((q = entry.key ∧ v = entry.value ∧ h = entry.hash) ∨ HasPair elems q v h)) := by
  intro fuel
  induction fuel with
  | zero =>
    intro elems dist entry res _ _ _ _ _ _ _ _ _ hrun
    simp [insert_raw_loop] at hrun
  | succ fuel ih =>
    intro elems dist entry res hlen hOK hU hR hDL hhk hfresh hdf hP hrun
    have hposlt : pathPos entry.hash dist cap < cap := pathPos_lt hcap _ _
    have hdlt : dist < cap := by omega
    rw [insert_raw_loop] at hrun
    cases hE : elems.getD (pathPos entry.hash dist cap) none with
    | none =>
      rw [hE] at hrun
      simp only [] at hrun
      injection hrun with hres
      subst hres
      refine ⟨rfl, ?_, ?_, ?_, ?_, ?_, ?_, ?_⟩
      · simp [List.length_set, hlen]
      · intro i f hget
        rcases eq_or_ne i (pathPos entry.hash dist cap) with rfl | hne
        · rw [getD_set_self _ _ _ _ (by omega)] at hget
          cases hget
          exact hhk
        · rw [getD_set_ne _ _ _ _ _ (Ne.symm hne)] at hget
          exact hOK i f hget
      · intro i j f g hfi hgj hij
        rcases eq_or_ne i (pathPos entry.hash dist cap) with rfl | hnei
        · rw [getD_set_self _ _ _ _ (by omega)] at hfi
          rw [getD_set_ne _ _ _ _ _ hij] at hgj
          cases hfi
          exact Ne.symm (hfresh j g hgj)
        · rw [getD_set_ne _ _ _ _ _ (Ne.symm hnei)] at hfi
          rcases eq_or_ne j (pathPos entry.hash dist cap) with rfl | hnej
          · rw [getD_set_self _ _ _ _ (by omega)] at hgj
            cases hgj
            exact hfresh i f hfi
          · rw [getD_set_ne _ _ _ _ _ (Ne.symm hnej)] at hgj
            exact hU i j f g hfi hgj hij
      · intro i f hfi t ht
        rcases eq_or_ne i (pathPos entry.hash dist cap) with rfl | hnei
        · rw [getD_set_self _ _ _ _ (by omega)] at hfi
          cases hfi
          rw [show (⟨dist, entry.key, entry.value, entry.hash⟩ : HashElem K V).hash
              = entry.hash from rfl, distance_pathPos hcap _ _ hdlt] at ht
          obtain ⟨g, hg, hgd⟩ := hP t ht
          have hne' : pathPos entry.hash t cap ≠ pathPos entry.hash dist cap := by
            intro heq
            have := pathPos_inj hcap entry.hash (by omega) hdlt heq
            omega
          exact ⟨g, by rw [getD_set_ne _ _ _ _ _ (Ne.symm hne')]; exact hg, hgd⟩
        · rw [getD_set_ne _ _ _ _ _ (Ne.symm hnei)] at hfi
          obtain ⟨g, hg, hgd⟩ := hR i f hfi t ht
          have hne' : pathPos f.hash t cap ≠ pathPos entry.hash dist cap := by
            intro heq
            rw [heq, hE] at hg
            exact Option.noConfusion hg
          exact ⟨g, by rw [getD_set_ne _ _ _ _ _ (Ne.symm hne')]; exact hg, hgd⟩
      · intro i f hfi
        rcases eq_or_ne i (pathPos entry.hash dist cap) with rfl | hnei
        · rw [getD_set_self _ _ _ _ (by omega)] at hfi
          cases hfi
          exact le_of_eq (distance_pathPos hcap entry.hash dist hdlt).symm
        · rw [getD_set_ne _ _ _ _ _ (Ne.symm hnei)] at hfi
          exact hDL i f hfi
      · exact occL_set_some_of_none elems _ _ (by omega) hE
      · intro q v h
        rw [hasPair_set_some (by omega)]
        constructor
        · rintro (⟨rfl, rfl, rfl⟩ | hoff)
          · exact Or.inl ⟨rfl, rfl, rfl⟩
          · exact Or.inr (hasPair_of_hasPairOff hoff)
        · rintro (⟨rfl, rfl, rfl⟩ | hp)
          · exact Or.inl ⟨rfl, rfl, rfl⟩
          · obtain ⟨i, f, hget, hk, hv, hh⟩ := hp
            refine Or.inr ⟨i, f, ?_, hget, hk, hv, hh⟩
            intro heq
            rw [heq, hE] at hget
            exact Option.noConfusion hget
    | some e =>
      rw [hE] at hrun
      simp only [] at hrun
      have hek : e.key ≠ entry.key := hfresh _ e hE
      rw [if_neg hek] at hrun
      have heOK : e.hash = hash_key ab e.key := hOK _ e hE
      by_cases hsw : distance e.hash (pathPos entry.hash dist cap) cap < dist
      · -- Robin Hood swap branch
        rw [if_pos hsw] at hrun
        have hedlt : distance e.hash (pathPos entry.hash dist cap) cap < cap :=
          distance_lt hcap _ _
        have hPpath : pathPos e.hash
            (distance e.hash (pathPos entry.hash dist cap) cap) cap
            = pathPos entry.hash dist cap :=
          pathPos_distance hcap _ _ hposlt
        have hstep : (pathPos entry.hash dist cap + 1) &&& (cap - 1)
            = pathPos e.hash
                (distance e.hash (pathPos entry.hash dist cap) cap + 1) cap := by
          have h2 := pathPos_succ hcap e.hash
            (distance e.hash (pathPos entry.hash dist cap) cap)
          rw [hPpath] at h2
          exact h2
        rw [hstep] at hrun
        have harg := ih
          (elems.set (pathPos entry.hash dist cap)
            (some ⟨distance e.hash (pathPos entry.hash dist cap) cap,
                   entry.key, entry.value, entry.hash⟩))
          (distance e.hash (pathPos entry.hash dist cap) cap + 1) e res
          (by simp [List.length_set, hlen])
          (by
            intro i f hget
            rcases eq_or_ne i (pathPos entry.hash dist cap) with rfl | hne
            · rw [getD_set_self _ _ _ _ (by omega)] at hget
              cases hget
              exact hhk
            · rw [getD_set_ne _ _ _ _ _ (Ne.symm hne)] at hget
              exact hOK i f hget)
          (by
            intro i j f g hfi hgj hij
            rcases eq_or_ne i (pathPos entry.hash dist cap) with rfl | hnei
            · rw [getD_set_self _ _ _ _ (by omega)] at hfi
              rw [getD_set_ne _ _ _ _ _ hij] at hgj
              cases hfi
              exact fun hkk => hfresh j g hgj hkk.symm
            · rw [getD_set_ne _ _ _ _ _ (Ne.symm hnei)] at hfi
              rcases eq_or_ne j (pathPos entry.hash dist cap) with rfl | hnej
              · rw [getD_set_self _ _ _ _ (by omega)] at hgj
                cases hgj
                exact hfresh i f hfi
              · rw [getD_set_ne _ _ _ _ _ (Ne.symm hnej)] at hgj
                exact hU i j f g hfi hgj hij)
          (by
            intro i f hfi t ht
            rcases eq_or_ne i (pathPos entry.hash dist cap) with rfl | hnei
            · rw [getD_set_self _ _ _ _ (by omega)] at hfi
              cases hfi
              rw [show (⟨distance e.hash (pathPos entry.hash dist cap) cap,
                  entry.key, entry.value, entry.hash⟩ : HashElem K V).hash
                  = entry.hash from rfl, distance_pathPos hcap _ _ hdlt] at ht
              obtain ⟨g, hg, hgd⟩ := hP t ht
              have hne' : pathPos entry.hash t cap ≠ pathPos entry.hash dist cap := by
                intro heq
                have := pathPos_inj hcap entry.hash (by omega) hdlt heq
                omega
              exact ⟨g, by rw [getD_set_ne _ _ _ _ _ (Ne.symm hne')]; exact hg, hgd⟩
            · rw [getD_set_ne _ _ _ _ _ (Ne.symm hnei)] at hfi
              obtain ⟨g, hg, hgd⟩ := hR i f hfi t ht
              by_cases hposeq : pathPos f.hash t cap = pathPos entry.hash dist cap
              · rw [hposeq] at hg hgd ⊢
                rw [hE] at hg
                injection hg with hg
                subst hg
                refine ⟨_, getD_set_self _ _ _ _ (by omega), ?_⟩
                rw [show (⟨distance e.hash (pathPos entry.hash dist cap) cap,
                    entry.key, entry.value, entry.hash⟩ : HashElem K V).hash
                    = entry.hash from rfl, distance_pathPos hcap _ _ hdlt]
                omega
              · rw [getD_set_ne _ _ _ _ _ (Ne.symm hposeq)]
                exact ⟨g, hg, hgd⟩)
          (by
            intro i f hfi
            rcases eq_or_ne i (pathPos entry.hash dist cap) with rfl | hnei
            · rw [getD_set_self _ _ _ _ (by omega)] at hfi
              cases hfi
              rw [show (⟨distance e.hash (pathPos entry.hash dist cap) cap,
                  entry.key, entry.value, entry.hash⟩ : HashElem K V).hash
                  = entry.hash from rfl, distance_pathPos hcap _ _ hdlt]
              exact le_of_lt hsw
            · rw [getD_set_ne _ _ _ _ _ (Ne.symm hnei)] at hfi
              exact hDL i f hfi)
          heOK
          (by
            intro i f hfi
            rcases eq_or_ne i (pathPos entry.hash dist cap) with rfl | hnei
            · rw [getD_set_self _ _ _ _ (by omega)] at hfi
              cases hfi
              exact fun hkk => hek hkk.symm
            · rw [getD_set_ne _ _ _ _ _ (Ne.symm hnei)] at hfi
              exact hU i (pathPos entry.hash dist cap) f e hfi hE hnei)
          (by omega)
          (by
            intro t ht
            rcases Nat.lt_or_ge t (distance e.hash (pathPos entry.hash dist cap) cap)
              with ht' | ht'
            · obtain ⟨g, hg, hgd⟩ := hR (pathPos entry.hash dist cap) e hE t ht'
              have hne' : pathPos e.hash t cap ≠ pathPos entry.hash dist cap := by
                intro heq
                rw [← hPpath] at heq
                have := pathPos_inj hcap e.hash (by omega) hedlt heq
                omega
              exact ⟨g, by rw [getD_set_ne _ _ _ _ _ (Ne.symm hne')]; exact hg, hgd⟩
            · have ht2 : t = distance e.hash (pathPos entry.hash dist cap) cap := by
                omega
              subst ht2
              rw [hPpath]
              refine ⟨_, getD_set_self _ _ _ _ (by omega), ?_⟩
              rw [show (⟨distance e.hash (pathPos entry.hash dist cap) cap,
                  entry.key, entry.value, entry.hash⟩ : HashElem K V).hash
                  = entry.hash from rfl, distance_pathPos hcap _ _ hdlt]
              omega)
          hrun
        obtain ⟨hb, hlen', hOK', hU', hR', hDL', hocc', hHP'⟩ := harg
        refine ⟨hb, hlen', hOK', hU', hR', hDL', ?_, ?_⟩
        · rw [hocc', occL_set_some_of_some elems _ _ e hE]
        · intro q v h
          rw [hHP' q v h, hasPair_set_some (by omega)]
          constructor
          · rintro (⟨rfl, rfl, rfl⟩ | (⟨rfl, rfl, rfl⟩ | hoff))
            · exact Or.inr ⟨_, e, hE, rfl, rfl, rfl⟩
            · exact Or.inl ⟨rfl, rfl, rfl⟩
            · exact Or.inr (hasPair_of_hasPairOff hoff)
          · rintro (⟨rfl, rfl, rfl⟩ | hp)
            · exact Or.inr (Or.inl ⟨rfl, rfl, rfl⟩)
            · by_cases hqe : q = e.key
              · subst hqe
                obtain ⟨hv, hh⟩ := hasPair_unique hU hE hp
                exact Or.inl ⟨rfl, hv, hh⟩
              · exact Or.inr (Or.inr (hasPairOff_of_hasPair hU hE hqe hp))
      · -- keep probing branch
        rw [if_neg hsw] at hrun
        have hstep : (pathPos entry.hash dist cap + 1) &&& (cap - 1)
            = pathPos entry.hash (dist + 1) cap := pathPos_succ hcap _ _
        rw [hstep] at hrun
        have harg := ih elems (dist + 1) ⟨dist, entry.key, entry.value, entry.hash⟩ res
          hlen hOK hU hR hDL hhk hfresh (by omega)
          (by
            intro t ht
            rcases Nat.lt_or_ge t dist with ht' | ht'
            · exact hP t ht'
            · have ht2 : t = dist := by omega
              subst ht2
              refine ⟨e, hE, ?_⟩
              show t ≤ distance e.hash (pathPos entry.hash t cap) cap
              omega)
          hrun
        obtain ⟨hb, hlen', hOK', hU', hR', hDL', hocc', hHP'⟩ := harg
        exact ⟨hb, hlen', hOK', hU', hR', hDL', hocc', hHP'⟩

end CaseB

section CaseA

variable {K V : Type} [DecidableEq K]

open HashMap

theorem insert_raw_loop_present (ab : K → List Nat) {cap w : Nat} (hcap : cap = 2 ^ w) :
    ∀ (fuel : Nat) (elems : List (Option (HashElem K V))) (t : Nat)
      (entry : HashElem K V) (i0 : Nat) (e0 : HashElem K V),
      elems.length = cap →
      HashOK ab elems → Uniq elems → Reach elems cap →
      entry.hash = hash_key ab entry.key →
      elems.getD i0 none = some e0 → e0.key = entry.key →
      t ≤ distance entry.hash i0 cap →
      distance entry.hash i0 cap < t + fuel →
      insert_raw_loop cap (cap - 1) fuel elems (pathPos entry.hash t cap) t entry
        = some (elems.set i0 (some { entry with dist := distance entry.hash i0 cap }),
                true) := by
  intro fuel
  induction fuel with
  | zero =>
    intro elems t entry i0 e0 _ _ _ _ _ _ _ ht hfd
    omega
  | succ fuel ih =>
    intro elems t entry i0 e0 hlen hOK hU hR hhk hE0 hkey ht hfd
    have hi0lt : i0 < cap := by
      have := lt_length_of_getD_some elems i0 e0 hE0
      omega
    have he0h : e0.hash = entry.hash := by
      rw [hOK i0 e0 hE0, hkey, ← hhk]
    have hd0lt : distance entry.hash i0 cap < cap := distance_lt hcap _ _
    rcases eq_or_lt_of_le ht with heq | hlt
    · have hpos_eq : pathPos entry.hash t cap = i0 := by
        rw [heq]
        exact pathPos_distance hcap _ _ hi0lt
      rw [insert_raw_loop, hpos_eq, hE0]
      simp only []
      rw [if_pos hkey, heq]
    · have hfd2 := hR i0 e0 hE0 t (by rw [he0h]; exact hlt)
      rw [he0h] at hfd2
      obtain ⟨f, hf, hfdist⟩ := hfd2
      have hposne : pathPos entry.hash t cap ≠ i0 := by
        intro hpe
        have h2 : pathPos entry.hash t cap = pathPos entry.hash (distance entry.hash i0 cap) cap := by
          rw [hpe, pathPos_distance hcap _ _ hi0lt]
        have := pathPos_inj hcap entry.hash (by omega) hd0lt h2
        omega
      have hfk : f.key ≠ entry.key := by
        rw [← hkey]
        exact hU _ i0 f e0 hf hE0 hposne
      rw [insert_raw_loop, hf]
      simp only []
      rw [if_neg hfk, if_neg (by omega : ¬ distance f.hash (pathPos entry.hash t cap) cap < t),
        pathPos_succ hcap]
      exact ih elems (t + 1) ⟨t, entry.key, entry.value, entry.hash⟩ i0 e0 hlen hOK hU hR
        hhk hE0 hkey
        (by show t + 1 ≤ distance entry.hash i0 cap; omega)
        (by show distance entry.hash i0 cap < t + 1 + fuel; omega)

end CaseA

section RawSpec

variable {K V : Type} [DecidableEq K]

open HashMap

theorem insert_raw_loop_total {cap w : Nat} (hcap : cap = 2 ^ w) :
    ∀ (fuel : Nat) (elems : List (Option (HashElem K V))) (pos dist : Nat)
      (entry : HashElem K V),
      elems.length = cap →
      (∃ k, k < fuel ∧ elems.getD ((pos + k) % cap) none = none) →
      (insert_raw_loop cap (cap - 1) fuel elems pos dist entry).isSome = true := by
  intro fuel
  induction fuel with
  | zero =>
    intro elems pos dist entry _ hex
    obtain ⟨k, hk, _⟩ := hex
    omega
  | succ fuel ih =>
    intro elems pos dist entry hlen hex
    obtain ⟨k, hk, hkE⟩ := hex
    rw [insert_raw_loop]
    cases hE : elems.getD pos none with
    | none => simp
    | some e =>
      simp only []
      have hposlt : pos < cap := by
        have := lt_length_of_getD_some elems pos e hE
        omega
      have hk0 : k ≠ 0 := by
        intro h0
        subst h0
        rw [Nat.add_zero, Nat.mod_eq_of_lt hposlt, hE] at hkE
        exact Option.noConfusion hkE
      have hstep : ∀ (l : List (Option (HashElem K V))),
          l.getD ((pos + k) % cap) none = none →
          ∃ j, j < fuel ∧ l.getD ((((pos + 1) &&& (cap - 1)) + j) % cap) none = none := by
        intro l hl
        refine ⟨k - 1, by omega, ?_⟩
        rw [land_mask hcap, Nat.mod_add_mod, show pos + 1 + (k - 1) = pos + k by omega]
        exact hl
      by_cases hkey : e.key = entry.key
      · rw [if_pos hkey]
        simp
      · rw [if_neg hkey]
        by_cases hsw : distance e.hash pos cap < dist
        · rw [if_pos hsw]
          have hne : (pos + k) % cap ≠ pos := by
            intro hpe
            rw [hpe, hE] at hkE
            exact Option.noConfusion hkE
          exact ih _ _ _ _ (by simp [List.length_set, hlen])
            (hstep _ (by rw [getD_set_ne _ _ _ _ _ (Ne.symm hne)]; exact hkE))
        · rw [if_neg hsw]
          exact ih _ _ _ _ hlen (hstep elems hkE)

theorem insert_raw_spec (ab : K → List Nat) {m : HashMap K V} {w : Nat}
    (hcap : m.capacity = 2 ^ w) (hlen : m.elems.length = m.capacity)
    (hmask : m.mask = m.capacity - 1)
    (hOK : HashOK ab m.elems) (hU : Uniq m.elems) (hR : Reach m.elems m.capacity)
    (hDL : DistLE m.elems m.capacity) (key : K) (val : V)
    {res : HashMap K V × Bool}
    (hres : insert_raw m (hash_key ab key) key val = some res) :
    res.1.elems.length = m.capacity ∧ res.1.capacity = m.capacity ∧
    res.1.mask = m.mask ∧ res.1.threshold = m.threshold ∧
    res.1.load_factor = m.load_factor ∧
    HashOK ab res.1.elems ∧ Uniq res.1.elems ∧ Reach res.1.elems m.capacity ∧
    DistLE res.1.elems m.capacity ∧
    (res.2 = true ↔ ∃ v' h', HasPair m.elems key v' h') ∧
    res.1.len = (if res.2 then m.len else m.len + 1) ∧
    occL res.1.elems = (if res.2 then occL m.elems else occL m.elems + 1) ∧
    (∀ q v h, HasPair res.1.elems q v h ↔
      ((q = key ∧ v = val ∧ h = hash_key ab key) ∨
       (HasPair m.elems q v h ∧ q ≠ key))) := by
  unfold insert_raw at hres
  obtain ⟨lres, hloop, hmap⟩ := Option.map_eq_some'.mp hres
  subst hmap
  rw [hmask, land_mask hcap, ← @pathPos_zero m.capacity _] at hloop
  by_cases hpres : ∃ i0 e0, m.elems.getD i0 none = some e0 ∧ e0.key = key
  · obtain ⟨i0, e0, hE0, hkey⟩ := hpres
    have hd0lt : distance (hash_key ab key) i0 m.capacity < m.capacity :=
      distance_lt hcap _ _
    have hA := insert_raw_loop_present ab hcap m.capacity m.elems 0
      ⟨0, key, val, hash_key ab key⟩ i0 e0 hlen hOK hU hR rfl hE0 hkey
      (Nat.zero_le _)
      (by show distance (hash_key ab key) i0 m.capacity < 0 + m.capacity; omega)
    rw [hA] at hloop
    injection hloop with hloop
    subst hloop
    have he0h : e0.hash = hash_key ab key := by rw [hOK i0 e0 hE0, hkey]
    have hi0lt : i0 < m.elems.length := lt_length_of_getD_some m.elems i0 e0 hE0
    refine ⟨by simp [List.length_set, hlen], rfl, rfl, rfl, rfl, ?_, ?_, ?_, ?_, ?_,
      rfl, ?_, ?_⟩
    · intro i f hget
      rcases eq_or_ne i i0 with rfl | hne
      · rw [getD_set_self _ _ _ _ hi0lt] at hget
        cases hget
        rfl
      · rw [getD_set_ne _ _ _ _ _ (Ne.symm hne)] at hget
        exact hOK i f hget
    · intro i j f g hfi hgj hij
      rcases eq_or_ne i i0 with rfl | hnei
      · rw [getD_set_self _ _ _ _ hi0lt] at hfi
        rw [getD_set_ne _ _ _ _ _ hij] at hgj
        cases hfi
        have := hU j i g e0 hgj hE0 (Ne.symm hij)
        rw [hkey] at this
        exact fun hc => this hc.symm
      · rw [getD_set_ne _ _ _ _ _ (Ne.symm hnei)] at hfi
        rcases eq_or_ne j i0 with rfl | hnej
        · rw [getD_set_self _ _ _ _ hi0lt] at hgj
          cases hgj
          have := hU i j f e0 hfi hE0 hnei
          rw [hkey] at this
          exact this
        · rw [getD_set_ne _ _ _ _ _ (Ne.symm hnej)] at hgj
          exact hU i j f g hfi hgj hij
    · intro i f hfi t ht
      rcases eq_or_ne i i0 with rfl | hnei
      · rw [getD_set_self _ _ _ _ hi0lt] at hfi
        cases hfi
        rw [show (⟨distance (hash_key ab key) i m.capacity, key, val,
            hash_key ab key⟩ : HashElem K V).hash = hash_key ab key from rfl] at ht ⊢
        rw [← he0h] at ht ⊢
        obtain ⟨g, hg, hgd⟩ := hR i e0 hE0 t ht
        have hne' : pathPos e0.hash t m.capacity ≠ i := by
          intro heq
          rw [← pathPos_distance hcap e0.hash i (by omega)] at heq
          have := pathPos_inj hcap e0.hash
            (lt_trans ht (distance_lt hcap _ _)) (distance_lt hcap _ _) heq
          omega
        exact ⟨g, by rw [getD_set_ne _ _ _ _ _ (Ne.symm hne')]; exact hg, hgd⟩
      · rw [getD_set_ne _ _ _ _ _ (Ne.symm hnei)] at hfi
        obtain ⟨g, hg, hgd⟩ := hR i f hfi t ht
        rcases eq_or_ne (pathPos f.hash t m.capacity) i0 with heq | hne'
        · rw [heq] at hg hgd ⊢
          rw [hE0] at hg
          injection hg with hg
          subst hg
          refine ⟨_, getD_set_self _ _ _ _ hi0lt, ?_⟩
          rw [show (⟨distance (hash_key ab key) i0 m.capacity, key, val,
              hash_key ab key⟩ : HashElem K V).hash = hash_key ab key from rfl,
            ← he0h]
          exact hgd
        · rw [getD_set_ne _ _ _ _ _ (Ne.symm hne')]
          exact ⟨g, hg, hgd⟩
    · intro i f hfi
      rcases eq_or_ne i i0 with rfl | hnei
      · rw [getD_set_self _ _ _ _ hi0lt] at hfi
        cases hfi
        exact le_refl _
      · rw [getD_set_ne _ _ _ _ _ (Ne.symm hnei)] at hfi
        exact hDL i f hfi
    · exact iff_of_true rfl ⟨e0.value, e0.hash, i0, e0, hE0, hkey, rfl, rfl⟩
    · exact occL_set_some_of_some m.elems i0 _ e0 hE0
    · intro q v h
      refine Iff.trans (hasPair_set_some (by omega) _ q v h) ?_
      constructor
      · rintro (⟨rfl, rfl, rfl⟩ | hoff)
        · exact Or.inl ⟨rfl, rfl, rfl⟩
        · obtain ⟨i, f, hne, hget, hk, hv, hh⟩ := hoff
          refine Or.inr ⟨⟨i, f, hget, hk, hv, hh⟩, ?_⟩
          have := hU i i0 f e0 hget hE0 hne
          rw [hkey] at this
          rw [← hk]
          exact this
      · rintro (⟨rfl, rfl, rfl⟩ | ⟨hp, hqk⟩)
        · exact Or.inl ⟨rfl, rfl, rfl⟩
        · refine Or.inr (hasPairOff_of_hasPair hU hE0 ?_ hp)
          rw [hkey]
          exact hqk
  · push_neg at hpres
    have hfresh : ∀ i e, m.elems.getD i none = some e →
        e.key ≠ (⟨0, key, val, hash_key ab key⟩ : HashElem K V).key := by
      intro i e hget
      exact hpres i e hget
    have hB := insert_raw_loop_fresh ab hcap m.capacity m.elems 0
      ⟨0, key, val, hash_key ab key⟩ lres hlen hOK hU hR hDL rfl hfresh
      (by omega) (by intro t ht; omega) hloop
    obtain ⟨hb, hlen', hOK', hU', hR', hDL', hocc', hHP'⟩ := hB
    have hnopair : ¬ ∃ v' h', HasPair m.elems key v' h' := by
      rintro ⟨v', h', hp⟩
      exact hasPair_not_of_fresh (fun i e hg => hpres i e hg) hp
    refine ⟨hlen', rfl, rfl, rfl, rfl, hOK', hU', hR', hDL',
      iff_of_false (by simp [hb]) hnopair, rfl,
      by rw [hb]; simpa using hocc', ?_⟩
    intro q v h
    refine Iff.trans (hHP' q v h) ?_
    constructor
    · rintro (⟨rfl, rfl, rfl⟩ | hp)
      · exact Or.inl ⟨rfl, rfl, rfl⟩
      · refine Or.inr ⟨hp, ?_⟩
        intro hqk
        subst hqk
        exact hasPair_not_of_fresh (fun i e hg => hpres i e hg) hp
    · rintro (⟨rfl, rfl, rfl⟩ | ⟨hp, _⟩)
      · exact Or.inl ⟨rfl, rfl, rfl⟩
      · exact Or.inr hp

end RawSpec

section Pow2Lemmas

theorem pow2_loop_sound (v : Nat) :
    ∀ (fuel i j p : Nat), i = 2 ^ j → 2 ≤ i → pow2_loop v i fuel = some p →
      (∃ k, p = 2 ^ k) ∧ v ≤ p ∧ 2 ≤ p := by
  intro fuel
  induction fuel with
  | zero =>
    intro i j p _ _ h
    simp [pow2_loop] at h
  | succ fuel ih =>
    intro i j p hij h2 h
    rw [pow2_loop] at h
    by_cases hlt : i < 2 ^ 62
    · rw [if_pos hlt] at h
      by_cases hvi : v ≤ i
      · rw [if_pos hvi] at h
        injection h with h
        subst h
        exact ⟨⟨j, hij⟩, hvi, h2⟩
      · rw [if_neg hvi] at h
        exact ih (i * 2) (j + 1) p (by rw [hij]; ring) (by omega) h
    · rw [if_neg hlt] at h
      exact Option.noConfusion h

theorem pow2_sound {v p : Nat} (h : pow2 v = some p) :
    (∃ k, p = 2 ^ k) ∧ v ≤ p ∧ 2 ≤ p :=
  pow2_loop_sound v 62 2 1 p (by norm_num) (le_refl 2) h

theorem pow2_eq_self_loop {v wv : Nat} (hv : v = 2 ^ wv) (h2v : 2 ≤ v) :
    ∀ (fuel i j p : Nat), i = 2 ^ j → i ≤ v → pow2_loop v i fuel = some p →
      p = v := by
  intro fuel
  induction fuel with
  | zero =>
    intro i j p _ _ h
    simp [pow2_loop] at h
  | succ fuel ih =>
    intro i j p hij hle h
    rw [pow2_loop] at h
    by_cases hlt : i < 2 ^ 62
    · rw [if_pos hlt] at h
      by_cases hvi : v ≤ i
      · rw [if_pos hvi] at h
        injection h with h
        omega
      · rw [if_neg hvi] at h
        refine ih (i * 2) (j + 1) p (by rw [hij]; ring) ?_ h
        have hjw : j < wv := by
          by_contra hc
          push_neg at hc
          have : v ≤ i := by
            rw [hij, hv]
            exact Nat.pow_le_pow_right (by omega) hc
          omega
        have h1 : i * 2 = 2 ^ (j + 1) := by rw [hij]; ring
        rw [h1, hv]
        exact Nat.pow_le_pow_right (by omega) hjw
    · rw [if_neg hlt] at h
      exact Option.noConfusion h

theorem pow2_eq_self {v wv : Nat} (hv : v = 2 ^ wv) (h2 : 2 ≤ v) {p : Nat}
    (h : pow2 v = some p) : p = v :=
  pow2_eq_self_loop hv h2 62 2 1 p (by norm_num) h2 h

theorem thr_double {x : Nat} (h : 100 ≤ x) : x / 100 + 1 ≤ 2 * x / 100 := by
  omega

end Pow2Lemmas

section CoherentDef

variable {K V : Type} [DecidableEq K]

open HashMap

/-- The full well-formedness invariant of a map state: consistent geometry
(power-of-two capacity matching the slot count, `mask = capacity - 1`,
`threshold` derived from capacity and a load factor below 100 with
`capacity * load_factor ≥ 100`), an accurate `len`, and the structural slot
invariants (`HashOK`, `Uniq`, `Reach`, `DistLE`).  All states reachable from
`new()` satisfy it. -/
@[mk_iff]
structure Coherent (ab : K → List Nat) (m : HashMap K V) : Prop where
  two_le : 2 ≤ m.capacity
  pow : 2 ^ Nat.log2 m.capacity = m.capacity
  elen : m.elems.length = m.capacity
  emask : m.mask = m.capacity - 1
  ethr : m.threshold = m.capacity * m.load_factor / 100
  lf_lt : m.load_factor < 100
  lf_ge : 100 ≤ m.capacity * m.load_factor
  len_eq : m.len = occL m.elems
  len_le : m.len ≤ m.threshold + 1
  hok : HashOK ab m.elems
  uq : Uniq m.elems
  rch : Reach m.elems m.capacity
  dle : DistLE m.elems m.capacity

theorem Coherent.thr_lt {ab : K → List Nat} {m : HashMap K V} (hC : Coherent ab m) :
    m.threshold < m.capacity := by
  rw [hC.ethr]
  rw [Nat.div_lt_iff_lt_mul (by omega)]
  have h2 := hC.two_le
  exact Nat.mul_lt_mul_of_le_of_lt (le_refl _) hC.lf_lt (by omega)

theorem uniq_shift {o : Option (HashElem K V)} {l : List (Option (HashElem K V))}
    (hU : Uniq (o :: l)) : Uniq l := by
  intro i j e f hi hj hij
  exact hU (i + 1) (j + 1) e f (by simpa using hi) (by simpa using hj) (by omega)

theorem uniq_pairwise {elems : List (Option (HashElem K V))} (hU : Uniq elems) :
    (elems.filterMap id).Pairwise (fun a b => a.key ≠ b.key) := by
  induction elems with
  | nil => simp
  | cons o l ih =>
    cases o with
    | none =>
      rw [show List.filterMap id (none :: l) = List.filterMap id l from rfl]
      exact ih (uniq_shift hU)
    | some e =>
      rw [show List.filterMap id (some e :: l) = e :: List.filterMap id l from rfl]
      rw [List.pairwise_cons]
      constructor
      · intro f hf
        obtain ⟨of, hmem, hof⟩ := List.mem_filterMap.mp hf
        obtain ⟨j, hjl, hjget⟩ := List.mem_iff_getElem.mp hmem
        subst hof
        have hget : l.getD j none = some f := by
          rw [List.getD_eq_getElem l none hjl, hjget]
        exact hU 0 (j + 1) e f (by simp) (by simpa using hget) (by omega)
      · exact ih (uniq_shift hU)

theorem hasPair_iff_mem {elems : List (Option (HashElem K V))} {q : K} {v : V}
    {h : Nat} :
    HasPair elems q v h ↔ ∃ e : HashElem K V, some e ∈ elems ∧ e.key = q ∧
      e.value = v ∧ e.hash = h := by
  constructor
  · rintro ⟨i, e, hget, hk, hv, hh⟩
    have hi : i < elems.length := lt_length_of_getD_some elems i e hget
    refine ⟨e, ?_, hk, hv, hh⟩
    rw [List.getD_eq_getElem elems none hi] at hget
    rw [← hget]
    exact List.getElem_mem hi
  · rintro ⟨e, hmem, hk, hv, hh⟩
    obtain ⟨i, hi, hget⟩ := List.mem_iff_getElem.mp hmem
    refine ⟨i, e, ?_, hk, hv, hh⟩
    rw [List.getD_eq_getElem elems none hi, hget]

end CoherentDef

section GrowSpec

variable {K V : Type} [DecidableEq K]

open HashMap

theorem grow_fold_spec (ab : K → List Nat) :
    ∀ (rest : List (Option (HashElem K V))) (acc acc' : HashMap K V),
      Coherent ab acc →
      acc.len + occL rest ≤ acc.threshold →
      (rest.filterMap id).Pairwise (fun a b => a.key ≠ b.key) →
      (∀ e : HashElem K V, some e ∈ rest → ∀ v h, ¬ HasPair acc.elems e.key v h) →
      (∀ e : HashElem K V, some e ∈ rest → e.hash = hash_key ab e.key) →
      rest.foldlM
        (fun acc oe =>
          match oe with
          | some e => (insert_raw acc e.hash e.key e.value).map Prod.fst
          | none => some acc) acc = some acc' →
      Coherent ab acc' ∧ acc'.capacity = acc.capacity ∧
      acc'.threshold = acc.threshold ∧ acc'.load_factor = acc.load_factor ∧
      acc'.len = acc.len + occL rest ∧
      (∀ q v h, HasPair acc'.elems q v h ↔
        (HasPair acc.elems q v h ∨ ∃ e : HashElem K V, some e ∈ rest ∧
          e.key = q ∧ e.value = v ∧ e.hash = h)) := by
  intro rest
  induction rest with
  | nil =>
    intro acc acc' hC _ _ _ _ hfold
    simp only [List.foldlM_nil] at hfold
    injection hfold with hfold
    subst hfold
    refine ⟨hC, rfl, rfl, rfl, by simp [occL_nil], ?_⟩
    simp
  | cons o rest ih =>
    intro acc acc' hC hroom hpw hfr hsh hfold
    rw [List.foldlM_cons] at hfold
    cases o with
    | none =>
      have hres := ih acc acc' hC (by rw [occL_cons] at hroom; simpa using hroom)
        (by simpa using hpw)
        (fun e hm => hfr e (List.mem_cons_of_mem _ hm))
        (fun e hm => hsh e (List.mem_cons_of_mem _ hm)) hfold
      obtain ⟨h1, h2, h3, h4, h5, h6⟩ := hres
      refine ⟨h1, h2, h3, h4, by rw [occL_cons]; simpa using h5, ?_⟩
      intro q v h
      rw [h6 q v h]
      constructor
      · rintro (hp | ⟨e, hm, he⟩)
        · exact Or.inl hp
        · exact Or.inr ⟨e, List.mem_cons_of_mem _ hm, he⟩
      · rintro (hp | ⟨e, hm, he⟩)
        · exact Or.inl hp
        · rcases List.mem_cons.mp hm with heq | hm2
          · exact absurd heq.symm (by simp)
          · exact Or.inr ⟨e, hm2, he⟩
    | some e =>
      have hme : (some e) ∈ (some e :: rest) := List.mem_cons_self _ _
      obtain ⟨acc1, hstep, hrest⟩ := Option.bind_eq_some.mp hfold
      obtain ⟨r, hr, hfst⟩ := Option.map_eq_some'.mp hstep
      rw [hsh e hme] at hr
      have hspec := insert_raw_spec ab hC.pow.symm
        hC.elen hC.emask hC.hok hC.uq hC.rch hC.dle e.key e.value hr
      obtain ⟨slen, scap, smask, sthr, slf, sOK, sU, sR, sDL, sflag, slen2, socc,
        sHP⟩ := hspec
      have hb : r.2 = false := by
        cases hb2 : r.2
        · rfl
        · exfalso
          obtain ⟨v', h', hp⟩ := sflag.mp hb2
          exact hfr e hme v' h' hp
      subst hfst
      have hlen1 : r.1.len = acc.len + 1 := by
        rw [slen2, hb]
        simp
      have hocc1 : occL r.1.elems = occL acc.elems + 1 := by
        rw [socc, hb]
        simp
      have hpwt : (rest.filterMap id).Pairwise (fun a b => a.key ≠ b.key) := by
        rw [show List.filterMap id (some e :: rest) = e :: List.filterMap id rest
          from rfl, List.pairwise_cons] at hpw
        exact hpw.2
      have hhead : ∀ f : HashElem K V, some f ∈ rest → e.key ≠ f.key := by
        intro f hf
        rw [show List.filterMap id (some e :: rest) = e :: List.filterMap id rest
          from rfl, List.pairwise_cons] at hpw
        exact hpw.1 f (List.mem_filterMap.mpr ⟨some f, hf, rfl⟩)
      have hC1 : Coherent ab r.1 := by
        refine ⟨?_, ?_, ?_, ?_, ?_, ?_, ?_, ?_, ?_, sOK, sU, ?_, ?_⟩
        · rw [scap]; exact hC.two_le
        · rw [scap]; exact hC.pow
        · rw [slen, scap]
        · rw [smask, scap, hC.emask]
        · rw [sthr, scap, slf, hC.ethr]
        · rw [slf]; exact hC.lf_lt
        · rw [scap, slf]; exact hC.lf_ge
        · rw [hlen1, hocc1, hC.len_eq]
        · rw [hlen1, sthr]
          rw [occL_cons] at hroom
          simp at hroom
          omega
        · rw [scap]; exact sR
        · rw [scap]; exact sDL
      have hres := ih r.1 acc' hC1
        (by
          rw [hlen1, sthr]
          rw [occL_cons] at hroom
          simp at hroom
          omega)
        hpwt
        (by
          intro f hf v h hp
          rw [sHP f.key v h] at hp
          rcases hp with ⟨hfk, _, _⟩ | ⟨hp2, _⟩
          · exact hhead f hf hfk.symm
          · exact hfr f (List.mem_cons_of_mem _ hf) v h hp2)
        (fun f hm => hsh f (List.mem_cons_of_mem _ hm)) hrest
      obtain ⟨h1, h2, h3, h4, h5, h6⟩ := hres
      refine ⟨h1, by rw [h2, scap], by rw [h3, sthr], by rw [h4, slf], ?_, ?_⟩
      · rw [h5, hlen1, occL_cons]
        simp
        omega
      · intro q v h
        rw [h6 q v h]
        constructor
        · rintro (hp | ⟨f, hm, hfk, hfv, hfh⟩)
          · rw [sHP q v h] at hp
            rcases hp with ⟨rfl, rfl, rfl⟩ | ⟨hp2, _⟩
            · exact Or.inr ⟨e, hme, rfl, rfl, hsh e hme⟩
            · exact Or.inl hp2
          · exact Or.inr ⟨f, List.mem_cons_of_mem _ hm, hfk, hfv, hfh⟩
        · rintro (hp | ⟨f, hm, hfk, hfv, hfh⟩)
          · rw [sHP q v h]
            refine Or.inl (Or.inr ⟨hp, ?_⟩)
            intro hqk
            subst hqk
            obtain ⟨i, g, hget, hgk, _, _⟩ := hp
            exact hfr e hme _ _ ⟨i, g, hget, hgk, rfl, rfl⟩
          · rcases List.mem_cons.mp hm with heq | hm2
            · injection heq with heq
              subst heq
              rw [sHP q v h]
              exact Or.inl (Or.inl ⟨hfk.symm, hfv.symm, by rw [← hfh, hsh f hme]⟩)
            · exact Or.inr ⟨f, hm2, hfk, hfv, hfh⟩

end GrowSpec

section InsertSpec

variable {K V : Type} [DecidableEq K]

open HashMap

theorem coherent_replicate (ab : K → List Nat) {c lf w : Nat} (hc : c = 2 ^ w)
    (hw : 1 ≤ w) (hlf : lf < 100) (hge : 100 ≤ c * lf) :
    Coherent ab ({ elems := List.replicate c none
                   len := 0
                   capacity := c
                   threshold := c * lf / 100
                   mask := c - 1
                   load_factor := lf } : HashMap K V) := by
  refine ⟨?_, ?_, ?_, rfl, rfl, hlf, hge, ?_, Nat.zero_le _, ?_, ?_, ?_, ?_⟩
  · rw [hc]
    have : (1 : Nat) ≤ 2 ^ w → 2 ^ 1 ≤ 2 ^ w := fun _ =>
      Nat.pow_le_pow_right (by omega) hw
    simpa using this (Nat.one_le_two_pow)
  · rw [hc, Nat.log2_two_pow]
  · exact List.length_replicate c none
  · rw [occL_replicate]
  · intro i e hget
    rw [getD_replicate_none] at hget
    exact Option.noConfusion hget
  · intro i j e f hget _ _
    rw [getD_replicate_none] at hget
    exact Option.noConfusion hget
  · intro i e hget
    rw [getD_replicate_none] at hget
    exact Option.noConfusion hget
  · intro i e hget
    rw [getD_replicate_none] at hget
    exact Option.noConfusion hget

theorem with_capacity_and_factor_spec (ab : K → List Nat) {c lf w : Nat}
    (hc : c = 2 ^ w) (hw : 1 ≤ w) (hlf : lf < 100) (hge : 100 ≤ c * lf)
    {m : HashMap K V} (hm : with_capacity_and_factor K V c lf = some m) :
    Coherent ab m ∧ m.capacity = c ∧ m.threshold = c * lf / 100 ∧
    m.load_factor = lf ∧ m.len = 0 ∧ (∀ q v h, ¬ HasPair m.elems q v h) := by
  unfold with_capacity_and_factor at hm
  obtain ⟨p, hp, hmk⟩ := Option.map_eq_some'.mp hm
  have h2c : 2 ≤ c := by
    rw [hc]
    calc (2 : Nat) = 2 ^ 1 := rfl
      _ ≤ 2 ^ w := Nat.pow_le_pow_right (by omega) hw
  have hpc : p = c := pow2_eq_self hc h2c hp
  rw [hpc] at hmk
  subst hmk
  refine ⟨coherent_replicate ab hc hw hlf hge, rfl, rfl, rfl, rfl, ?_⟩
  intro q v h
  rintro ⟨i, e, hget, _⟩
  rw [show ({ elems := List.replicate c none
              len := 0
              capacity := c
              threshold := c * lf / 100
              mask := c - 1
              load_factor := lf } : HashMap K V).elems
      = List.replicate c none from rfl, getD_replicate_none] at hget
  exact Option.noConfusion hget

theorem grow_spec (ab : K → List Nat) {m m' : HashMap K V} (hC : Coherent ab m)
    (hg : grow m = some m') :
    Coherent ab m' ∧ m'.capacity = 2 * m.capacity ∧
    m'.load_factor = m.load_factor ∧ m'.len = m.len ∧
    m.threshold + 1 ≤ m'.threshold ∧
    (∀ q v h, HasPair m'.elems q v h ↔ HasPair m.elems q v h) := by
  unfold grow at hg
  obtain ⟨fresh, hwf, hfold⟩ := Option.bind_eq_some.mp hg
  have hc2 : m.capacity * 2 = 2 ^ (Nat.log2 m.capacity + 1) := by
    rw [Nat.pow_succ, hC.pow]
  have hw1 : 1 ≤ Nat.log2 m.capacity + 1 := by omega
  have hlf := hC.lf_lt
  have hge2 : 100 ≤ m.capacity * 2 * m.load_factor := by
    have h1 := hC.lf_ge
    have h2 : m.capacity * m.load_factor ≤ m.capacity * 2 * m.load_factor := by
      have : m.capacity ≤ m.capacity * 2 := by omega
      exact Nat.mul_le_mul_right _ this
    omega
  obtain ⟨hCf, hfcap, hfthr, hflf, hflen, hfpairs⟩ :=
    with_capacity_and_factor_spec ab hc2 hw1 hlf hge2 hwf
  have hthr2 : m.threshold + 1 ≤ fresh.threshold := by
    rw [hfthr, hC.ethr]
    calc m.capacity * m.load_factor / 100 + 1
        ≤ 2 * (m.capacity * m.load_factor) / 100 := thr_double hC.lf_ge
      _ = m.capacity * 2 * m.load_factor / 100 := by ring_nf
  have hroom : fresh.len + occL m.elems ≤ fresh.threshold := by
    rw [hflen, hC.len_eq.symm]
    have := hC.len_le
    omega
  have hsh : ∀ e : HashElem K V, some e ∈ m.elems → e.hash = hash_key ab e.key := by
    intro e hmem
    obtain ⟨i, hi, hget⟩ := List.mem_iff_getElem.mp hmem
    exact hC.hok i e (by rw [List.getD_eq_getElem m.elems none hi, hget])
  obtain ⟨h1, h2, h3, h4, h5, h6⟩ := grow_fold_spec ab m.elems fresh m' hCf hroom
    (uniq_pairwise hC.uq)
    (fun e _ v h hp => hfpairs e.key v h hp) hsh hfold
  refine ⟨h1, ?_, ?_, ?_, ?_, ?_⟩
  · rw [h2, hfcap]; ring
  · rw [h4, hflf]
  · rw [h5, hflen, hC.len_eq]; simp
  · rw [h3]; exact hthr2
  intro q v h
  rw [h6 q v h]
  constructor
  · rintro (hp | ⟨e, hm2, hk, hv, hh⟩)
    · exact absurd hp (hfpairs q v h)
    · rw [← hk, ← hv, ← hh]
      exact hasPair_iff_mem.mpr ⟨e, hm2, rfl, rfl, rfl⟩
  · intro hp
    obtain ⟨e, hm2, hk, hv, hh⟩ := hasPair_iff_mem.mp hp
    exact Or.inr ⟨e, hm2, hk, hv, hh⟩

theorem insert_spec (ab : K → List Nat) {m m' : HashMap K V} (hC : Coherent ab m)
    {k : K} {v : V} (h : HashMap.insert ab m k v = some m') :
    Coherent ab m' ∧
    (∀ q v' h', HasPair m'.elems q v' h' ↔
      ((q = k ∧ v' = v ∧ h' = hash_key ab k) ∨
       (HasPair m.elems q v' h' ∧ q ≠ k))) ∧
    ((∃ v0 h0, HasPair m.elems k v0 h0) → m'.len = m.len) ∧
    ((¬ ∃ v0 h0, HasPair m.elems k v0 h0) → m'.len = m.len + 1) := by
  unfold HashMap.insert at h
  obtain ⟨m1, hm1, hraw⟩ := Option.bind_eq_some.mp h
  obtain ⟨r, hr, hfst⟩ := Option.map_eq_some'.mp hraw
  subst hfst
  have hbase : Coherent ab m1 ∧ m1.len ≤ m1.threshold ∧ m1.len = m.len ∧
      (∀ q v' h', HasPair m1.elems q v' h' ↔ HasPair m.elems q v' h') := by
    by_cases hgrow : m.threshold < m.len
    · rw [if_pos hgrow] at hm1
      obtain ⟨g1, g2, g3, g4, g5, g6⟩ := grow_spec ab hC hm1
      refine ⟨g1, ?_, g4, g6⟩
      rw [g4]
      have := hC.len_le
      omega
    · rw [if_neg hgrow] at hm1
      injection hm1 with hm1
      subst hm1
      exact ⟨hC, by omega, rfl, fun q v' h' => Iff.rfl⟩
  obtain ⟨hC1, hle1, hlen1, hpairs1⟩ := hbase
  have hspec := insert_raw_spec ab hC1.pow.symm
    hC1.elen hC1.emask hC1.hok hC1.uq hC1.rch hC1.dle k v hr
  obtain ⟨slen, scap, smask, sthr, slf, sOK, sU, sR, sDL, sflag, slen2, socc,
    sHP⟩ := hspec
  have hCr : Coherent ab r.1 := by
    refine ⟨?_, ?_, ?_, ?_, ?_, ?_, ?_, ?_, ?_, sOK, sU, ?_, ?_⟩
    · rw [scap]; exact hC1.two_le
    · rw [scap]; exact hC1.pow
    · rw [slen, scap]
    · rw [smask, scap, hC1.emask]
    · rw [sthr, scap, slf, hC1.ethr]
    · rw [slf]; exact hC1.lf_lt
    · rw [scap, slf]; exact hC1.lf_ge
    · rw [slen2, socc, hC1.len_eq]
    · rw [slen2, sthr]
      have h9 := hle1
      cases hb : r.2 <;> simp [hb] <;> omega
    · rw [scap]; exact sR
    · rw [scap]; exact sDL
  refine ⟨hCr, ?_, ?_, ?_⟩
  · intro q v' h'
    rw [sHP q v' h']
    constructor
    · rintro (ht | ⟨hp, hne⟩)
      · exact Or.inl ht
      · exact Or.inr ⟨(hpairs1 q v' h').mp hp, hne⟩
    · rintro (ht | ⟨hp, hne⟩)
      · exact Or.inl ht
      · exact Or.inr ⟨(hpairs1 q v' h').mpr hp, hne⟩
  · intro hex
    have hb : r.2 = true := by
      rw [sflag]
      obtain ⟨v0, h0, hp⟩ := hex
      exact ⟨v0, h0, (hpairs1 k v0 h0).mpr hp⟩
    rw [slen2, hb, hlen1]
    simp
  · intro hex
    have hb : r.2 = false := by
      cases hb2 : r.2
      · rfl
      · exfalso
        obtain ⟨v0, h0, hp⟩ := sflag.mp hb2
        exact hex ⟨v0, h0, (hpairs1 k v0 h0).mp hp⟩
    rw [slen2, hb, hlen1]
    simp

end InsertSpec


section SequenceSpec

variable {K V : Type} [DecidableEq K]

open HashMap

/-- Pointwise functional update of a model map. -/
def updF (f : K → Option V) (kv : K × V) : K → Option V :=
  fun q => if q = kv.1 then some kv.2 else f q

/-- The model map after a sequence of insert operations. -/
def updList (f : K → Option V) (ops : List (K × V)) : K → Option V :=
  ops.foldl updF f

/-- Number of operations in `ops` that introduce a key not already bound. -/
def keyCount (f : K → Option V) : List (K × V) → Nat
  | [] => 0
  | kv :: rest =>
    (match f kv.1 with
     | none => 1
     | some _ => 0) + keyCount (updF f kv) rest

theorem foldl_insert_spec (ab : K → List Nat) :
    ∀ (ops : List (K × V)) (m m' : HashMap K V) (f : K → Option V),
      Coherent ab m →
      (∀ q v, (∃ h, HasPair m.elems q v h) ↔ f q = some v) →
      ops.foldlM (fun acc kv => HashMap.insert ab acc kv.1 kv.2) m = some m' →
      Coherent ab m' ∧
      (∀ q v, (∃ h, HasPair m'.elems q v h) ↔ updList f ops q = some v) ∧
      m'.len = m.len + keyCount f ops := by
  intro ops
  induction ops with
  | nil =>
    intro m m' f hC hf hfold
    simp only [List.foldlM_nil] at hfold
    injection hfold with hfold
    subst hfold
    exact ⟨hC, hf, by simp [keyCount]⟩
  | cons kv rest ih =>
    intro m m' f hC hf hfold
    rw [List.foldlM_cons] at hfold
    obtain ⟨m1, h1, hrest⟩ := Option.bind_eq_some.mp hfold
    obtain ⟨hC1, hHP1, hlenP, hlenA⟩ := insert_spec ab hC h1
    have hf1 : ∀ q v, (∃ h, HasPair m1.elems q v h) ↔ updF f kv q = some v := by
      intro q v
      unfold updF
      by_cases hq : q = kv.1
      · subst hq
        rw [if_pos rfl]
        constructor
        · rintro ⟨h, hp⟩
          rw [hHP1 kv.1 v h] at hp
          rcases hp with ⟨_, rfl, _⟩ | ⟨_, hne⟩
          · rfl
          · exact absurd rfl hne
        · rintro hv
          injection hv with hv
          subst hv
          exact ⟨hash_key ab kv.1,
            (hHP1 kv.1 kv.2 (hash_key ab kv.1)).mpr (Or.inl ⟨rfl, rfl, rfl⟩)⟩
      · rw [if_neg hq]
        constructor
        · rintro ⟨h, hp⟩
          rw [hHP1 q v h] at hp
          rcases hp with ⟨hqk, _, _⟩ | ⟨hp2, _⟩
          · exact absurd hqk hq
          · exact (hf q v).mp ⟨h, hp2⟩
        · intro hv
          obtain ⟨h, hp⟩ := (hf q v).mpr hv
          exact ⟨h, (hHP1 q v h).mpr (Or.inr ⟨hp, hq⟩)⟩
    have hlen1 : m1.len = m.len + (match f kv.1 with | none => 1 | some _ => 0) := by
      cases hfk : f kv.1 with
      | none =>
        have habs : ¬ ∃ v0 h0, HasPair m.elems kv.1 v0 h0 := by
          rintro ⟨v0, h0, hp⟩
          have := (hf kv.1 v0).mp ⟨h0, hp⟩
          rw [hfk] at this
          exact Option.noConfusion this
        rw [hlenA habs]
      | some v0 =>
        obtain ⟨h0, hp⟩ := (hf kv.1 v0).mpr hfk
        rw [hlenP ⟨v0, h0, hp⟩]
        rfl
    obtain ⟨hC2, hHP2, hlen2⟩ := ih m1 m' (updF f kv) hC1 hf1 hrest
    refine ⟨hC2, hHP2, ?_⟩
    rw [hlen2, hlen1, keyCount]
    omega

theorem lastVal_foldl_acc (q : K) :
    ∀ (rest : List (K × V)) (acc : Option V),
      rest.foldl (fun acc kv => if kv.1 = q then some kv.2 else acc) acc
        = (lastVal rest q).elim acc some := by
  intro rest
  induction rest with
  | nil => intro acc; rfl
  | cons kv r2 ihr =>
    intro acc
    rw [List.foldl_cons, ihr]
    show _ = (lastVal (kv :: r2) q).elim acc some
    rw [show lastVal (kv :: r2) q
        = r2.foldl (fun acc kv => if kv.1 = q then some kv.2 else acc)
          (if kv.1 = q then some kv.2 else none) from rfl]
    rw [ihr]
    cases lastVal r2 q with
    | some v => rfl
    | none =>
      rcases eq_or_ne kv.1 q with hq | hq
      · rw [if_pos hq, if_pos hq]
        rfl
      · rw [if_neg hq, if_neg hq]
        rfl

theorem updList_elim (q : K) :
    ∀ (ops : List (K × V)) (f : K → Option V),
      updList f ops q = (lastVal ops q).elim (f q) some := by
  intro ops
  induction ops with
  | nil => intro f; rfl
  | cons kv rest ih =>
    intro f
    rw [show updList f (kv :: rest) q = updList (updF f kv) rest q from rfl, ih]
    rw [show lastVal (kv :: rest) q
        = rest.foldl (fun acc kv => if kv.1 = q then some kv.2 else acc)
          (if kv.1 = q then some kv.2 else none) from rfl]
    rw [lastVal_foldl_acc]
    cases lastVal rest q with
    | some v => rfl
    | none =>
      show updF f kv q = _
      unfold updF
      rcases eq_or_ne kv.1 q with hq | hq
      · rw [if_pos hq.symm, if_pos hq]
        rfl
      · rw [if_neg (fun hc => hq hc.symm), if_neg hq]
        rfl

theorem updList_none (ops : List (K × V)) (q : K) :
    updList (fun _ => (none : Option V)) ops q = lastVal ops q := by
  rw [updList_elim]
  cases lastVal ops q <;> rfl

theorem keyCount_eq_card :
    ∀ (ops : List (K × V)) (f : K → Option V),
      keyCount f ops
        = ((ops.map Prod.fst).toFinset.filter (fun k => (f k).isNone)).card := by
  intro ops
  induction ops with
  | nil => intro f; simp [keyCount]
  | cons kv rest ih =>
    intro f
    rw [keyCount, ih (updF f kv)]
    have hpred : ((rest.map Prod.fst).toFinset.filter
        (fun k => (updF f kv k).isNone))
        = ((rest.map Prod.fst).toFinset.filter
            (fun k => (f k).isNone)).erase kv.1 := by
      rw [← Finset.filter_ne' ((rest.map Prod.fst).toFinset.filter
        (fun k => (f k).isNone)) kv.1, Finset.filter_filter]
      apply Finset.filter_congr
      intro q _
      unfold updF
      rcases eq_or_ne q kv.1 with hq | hq
      · subst hq
        simp
      · simp [hq]
    rw [hpred]
    rw [show ((kv :: rest).map Prod.fst) = kv.1 :: rest.map Prod.fst from rfl,
      List.toFinset_cons]
    cases hfk : f kv.1 with
    | none =>
      dsimp only
      rw [Finset.filter_insert, if_pos (by rw [hfk]; rfl)]
      by_cases hmem : kv.1 ∈ (rest.map Prod.fst).toFinset.filter
          (fun k => (f k).isNone)
      · rw [Finset.card_erase_of_mem hmem, Finset.insert_eq_self.mpr hmem]
        have hpos : 0 < ((rest.map Prod.fst).toFinset.filter
            (fun k => (f k).isNone)).card := Finset.card_pos.mpr ⟨kv.1, hmem⟩
        omega
      · rw [Finset.erase_eq_of_not_mem hmem, Finset.card_insert_of_not_mem hmem]
        omega
    | some v0 =>
      dsimp only
      rw [Finset.filter_insert, if_neg (by rw [hfk]; simp)]
      have hnm : kv.1 ∉ (rest.map Prod.fst).toFinset.filter
          (fun k => (f k).isNone) := by
        intro hmem
        have := (Finset.mem_filter.mp hmem).2
        rw [hfk] at this
        simp at this
      rw [Finset.erase_eq_of_not_mem hnm]
      omega

theorem keyCount_none_eq_dedup (ops : List (K × V)) :
    keyCount (fun _ => (none : Option V)) ops = (ops.map Prod.fst).dedup.length := by
  rw [keyCount_eq_card]
  rw [show ((ops.map Prod.fst).toFinset.filter
      (fun k => (Option.none (α := V)).isNone))
      = (ops.map Prod.fst).toFinset from Finset.filter_true_of_mem (by intro _ _; rfl)]
  exact List.card_toFinset _

end SequenceSpec

section LookupSpec

variable {K V : Type} [DecidableEq K]

open HashMap

theorem index_loop_finds (ab : K → List Nat) {cap w : Nat} (hcap : cap = 2 ^ w) :
    ∀ (fuel : Nat) (elems : List (Option (HashElem K V))) (t : Nat) (q : K)
      (i0 : Nat) (e0 : HashElem K V),
      elems.length = cap →
      HashOK ab elems → Uniq elems → Reach elems cap →
      elems.getD i0 none = some e0 → e0.key = q →
      t ≤ distance e0.hash i0 cap →
      distance e0.hash i0 cap < t + fuel →
      index_loop cap (cap - 1) (hash_key ab q) q fuel elems
        (pathPos e0.hash t cap) t = some (some i0) := by
  intro fuel
  induction fuel with
  | zero =>
    intro elems t q i0 e0 _ _ _ _ _ _ ht hlt
    omega
  | succ fuel ih =>
    intro elems t q i0 e0 hlen hOK hU hR hE0 hkey ht hlt
    have hi0lt : i0 < cap := by
      have := lt_length_of_getD_some elems i0 e0 hE0
      omega
    have he0h : e0.hash = hash_key ab q := by
      rw [hOK i0 e0 hE0, hkey]
    rcases eq_or_lt_of_le ht with heq | hlt2
    · have hpos_eq : pathPos e0.hash t cap = i0 := by
        rw [heq]
        exact pathPos_distance hcap _ _ hi0lt
      rw [index_loop, hpos_eq, hE0]
      simp only []
      have hnlt : ¬ distance e0.hash i0 cap < t := by rw [heq]; omega
      rw [if_neg hnlt, if_pos ⟨he0h, hkey⟩]
    · obtain ⟨f, hf, hfd⟩ := hR i0 e0 hE0 t hlt2
      have hd0 : distance e0.hash i0 cap < cap := distance_lt hcap _ _
      have hposne : pathPos e0.hash t cap ≠ i0 := by
        intro hpe
        have h2 : pathPos e0.hash t cap = pathPos e0.hash (distance e0.hash i0 cap) cap := by
          rw [hpe, pathPos_distance hcap _ _ hi0lt]
        have := pathPos_inj hcap e0.hash (by omega) hd0 h2
        omega
      have hfk : f.key ≠ q := by
        rw [← hkey]
        exact hU _ i0 f e0 hf hE0 hposne
      rw [index_loop, hf]
      simp only []
      have hnlt : ¬ distance f.hash (pathPos e0.hash t cap) cap < t := by omega
      have hncond : ¬ (f.hash = hash_key ab q ∧ f.key = q) := by
        rintro ⟨_, hk⟩
        exact hfk hk
      rw [if_neg hnlt, if_neg hncond, pathPos_succ hcap]
      exact ih elems (t + 1) q i0 e0 hlen hOK hU hR hE0 hkey (by omega) (by omega)

theorem index_loop_sound {cap mask hsh : Nat} {q : K} :
    ∀ (fuel : Nat) (elems : List (Option (HashElem K V))) (pos dist i : Nat),
      index_loop cap mask hsh q fuel elems pos dist = some (some i) →
      ∃ e : HashElem K V, elems.getD i none = some e ∧ e.key = q ∧ e.hash = hsh := by
  intro fuel
  induction fuel with
  | zero =>
    intro elems pos dist i h
    simp [index_loop] at h
  | succ fuel ih =>
    intro elems pos dist i h
    rw [index_loop] at h
    cases hE : elems.getD pos none with
    | none =>
      rw [hE] at h
      simp at h
    | some e =>
      rw [hE] at h
      simp only [] at h
      by_cases h1 : distance e.hash pos cap < dist
      · rw [if_pos h1] at h
        simp at h
      · rw [if_neg h1] at h
        by_cases h2 : e.hash = hsh ∧ e.key = q
        · rw [if_pos h2] at h
          injection h with h
          injection h with h
          subst h
          exact ⟨e, hE, h2.2, h2.1⟩
        · rw [if_neg h2] at h
          exact ih elems _ _ i h

theorem get_eq_of_pair (ab : K → List Nat) {m : HashMap K V} (hC : Coherent ab m)
    {q : K} {v : V} {h : Nat} (hp : HasPair m.elems q v h) :
    HashMap.get ab m q = some v := by
  obtain ⟨i0, e0, hE0, hk, hv, hh⟩ := hp
  have hi0lt : i0 < m.capacity := by
    have := lt_length_of_getD_some m.elems i0 e0 hE0
    have := hC.elen
    omega
  have he0h : e0.hash = hash_key ab q := by
    rw [hC.hok i0 e0 hE0, hk]
  have hdlt : distance e0.hash i0 m.capacity < m.capacity :=
    distance_lt hC.pow.symm e0.hash i0
  have hfind := index_loop_finds ab hC.pow.symm
    (m.capacity + 1) m.elems 0 q i0 e0 hC.elen hC.hok hC.uq hC.rch hE0 hk
    (Nat.zero_le _) (by omega)
  have hstart : hash_key ab q &&& m.mask = pathPos e0.hash 0 m.capacity := by
    rw [hC.emask, land_mask hC.pow.symm, @pathPos_zero m.capacity e0.hash,
      he0h]
  have hidx : index ab m q = some (some i0) := by
    show index_loop m.capacity m.mask (hash_key ab q) q (m.capacity + 1) m.elems
      (hash_key ab q &&& m.mask) 0 = some (some i0)
    rw [hstart, hC.emask]
    exact hfind
  unfold HashMap.get
  rw [hidx]
  show (m.elems.getD i0 none).map (fun e => e.value) = some v
  rw [hE0]
  exact congrArg some hv

theorem get_sound (ab : K → List Nat) {m : HashMap K V} {q : K} {v : V}
    (hg : HashMap.get ab m q = some v) : ∃ h, HasPair m.elems q v h := by
  unfold HashMap.get at hg
  cases hidx : index ab m q with
  | none => rw [hidx] at hg; exact Option.noConfusion hg
  | some oi =>
    cases oi with
    | none => rw [hidx] at hg; exact Option.noConfusion hg
    | some i =>
      rw [hidx] at hg
      obtain ⟨e, hE, hk, hh⟩ := index_loop_sound _ m.elems _ _ i hidx
      have hg2 : (m.elems.getD i none).map (fun e => e.value) = some v := hg
      rw [hE] at hg2
      injection hg2 with hg2
      exact ⟨e.hash, i, e, hE, hk, hg2, rfl⟩

end LookupSpec

section DistIrrelevance

variable {K V : Type} [DecidableEq K]

open HashMap

/-- The dist-free content of a slot entry. -/
def stripDist (e : HashElem K V) : K × V × Nat := (e.key, e.value, e.hash)

/-- Slot lists that agree except possibly on the cached `dist` fields. -/
def ESim (l1 l2 : List (Option (HashElem K V))) : Prop :=
  l1.map (Option.map stripDist) = l2.map (Option.map stripDist)

/-- Map states that agree except possibly on the cached `dist` fields of
their occupied slots. -/
def SameUpToDist (m1 m2 : HashMap K V) : Prop :=
  m1.len = m2.len ∧ m1.capacity = m2.capacity ∧ m1.threshold = m2.threshold ∧
  m1.mask = m2.mask ∧ m1.load_factor = m2.load_factor ∧ ESim m1.elems m2.elems

theorem esim_getD {l1 l2 : List (Option (HashElem K V))} (h : ESim l1 l2) :
    ∀ i, Option.map stripDist (l1.getD i none) = Option.map stripDist (l2.getD i none) := by
  unfold ESim at h
  intro i
  induction l1 generalizing l2 i with
  | nil =>
    cases l2 with
    | nil => rfl
    | cons b t2 => exact absurd h (by simp)
  | cons a t1 ih =>
    cases l2 with
    | nil => exact absurd h (by simp)
    | cons b t2 =>
      simp only [List.map_cons, List.cons.injEq] at h
      cases i with
      | zero => exact h.1
      | succ j => exact ih h.2 j

theorem esim_length {l1 l2 : List (Option (HashElem K V))} (h : ESim l1 l2) :
    l1.length = l2.length := by
  unfold ESim at h
  have := congrArg List.length h
  simpa using this

theorem esim_set {l1 l2 : List (Option (HashElem K V))} (h : ESim l1 l2)
    {e1 e2 : HashElem K V} (he : stripDist e1 = stripDist e2) (i : Nat) :
    ESim (l1.set i (some e1)) (l2.set i (some e2)) := by
  unfold ESim
  rw [List.map_set, List.map_set, h]
  congr 1
  rw [show Option.map stripDist (some e1) = some (stripDist e1) from rfl,
    show Option.map stripDist (some e2) = some (stripDist e2) from rfl, he]

theorem index_loop_congr {cap mask hsh : Nat} {q : K} :
    ∀ (fuel : Nat) (l1 l2 : List (Option (HashElem K V))) (pos dist : Nat),
      ESim l1 l2 →
      index_loop cap mask hsh q fuel l1 pos dist
        = index_loop cap mask hsh q fuel l2 pos dist := by
  intro fuel
  induction fuel with
  | zero => intro l1 l2 pos dist _; rfl
  | succ fuel ih =>
    intro l1 l2 pos dist h
    rw [index_loop, index_loop]
    have hg := esim_getD h pos
    cases h1 : l1.getD pos none with
    | none =>
      rw [h1] at hg
      cases h2 : l2.getD pos none with
      | none => rfl
      | some e2 => rw [h2] at hg; exact absurd hg (by simp)
    | some e1 =>
      rw [h1] at hg
      cases h2 : l2.getD pos none with
      | none => rw [h2] at hg; exact absurd hg (by simp)
      | some e2 =>
        rw [h2] at hg
        simp only [Option.map_some'] at hg
        injection hg with hg
        have hk : e1.key = e2.key := congrArg (fun p => p.1) hg
        have hh : e1.hash = e2.hash := congrArg (fun p => p.2.2) hg
        simp only []
        rw [hk, hh]
        by_cases hc1 : distance e2.hash pos cap < dist
        · rw [if_pos hc1, if_pos hc1]
        · rw [if_neg hc1, if_neg hc1]
          by_cases hc2 : e2.hash = hsh ∧ e2.key = q
          · rw [if_pos hc2, if_pos hc2]
          · rw [if_neg hc2, if_neg hc2]
            exact ih _ _ _ _ h

theorem insert_raw_loop_congr {cap mask : Nat} :
    ∀ (fuel : Nat) (l1 l2 : List (Option (HashElem K V))) (pos dist : Nat)
      (e1 e2 : HashElem K V),
      ESim l1 l2 → stripDist e1 = stripDist e2 →
      Option.map (fun r => (r.1.map (Option.map stripDist), r.2))
          (insert_raw_loop cap mask fuel l1 pos dist e1)
        = Option.map (fun r => (r.1.map (Option.map stripDist), r.2))
          (insert_raw_loop cap mask fuel l2 pos dist e2) := by
  intro fuel
  induction fuel with
  | zero => intro l1 l2 pos dist e1 e2 _ _; rfl
  | succ fuel ih =>
    intro l1 l2 pos dist e1 e2 h he
    have hk : e1.key = e2.key := congrArg (fun p => p.1) he
    have hv : e1.value = e2.value := congrArg (fun p => p.2.1) he
    have hh : e1.hash = e2.hash := congrArg (fun p => p.2.2) he
    rw [insert_raw_loop, insert_raw_loop]
    have hg := esim_getD h pos
    cases h1 : l1.getD pos none with
    | none =>
      rw [h1] at hg
      cases h2 : l2.getD pos none with
      | none =>
        simp only [Option.map_some']
        have hs := esim_set h
          (show stripDist { e1 with dist := dist }
              = stripDist { e2 with dist := dist } from
            by unfold stripDist; simp [hk, hv, hh]) pos
        unfold ESim at hs
        rw [hs]
      | some f2 => rw [h2] at hg; exact absurd hg (by simp)
    | some f1 =>
      rw [h1] at hg
      cases h2 : l2.getD pos none with
      | none => rw [h2] at hg; exact absurd hg (by simp)
      | some f2 =>
        rw [h2] at hg
        simp only [Option.map_some'] at hg
        injection hg with hg
        have hfk : f1.key = f2.key := congrArg (fun p => p.1) hg
        have hfv : f1.value = f2.value := congrArg (fun p => p.2.1) hg
        have hfh : f1.hash = f2.hash := congrArg (fun p => p.2.2) hg
        simp only []
        by_cases hc1 : f2.key = e2.key
        · rw [if_pos (by rw [hfk, hk]; exact hc1), if_pos hc1]
          simp only [Option.map_some']
          have hs := esim_set h
            (show stripDist { e1 with dist := dist }
                = stripDist { e2 with dist := dist } from
              by unfold stripDist; simp [hk, hv, hh]) pos
          unfold ESim at hs
          rw [hs]
        · rw [if_neg (by rw [hfk, hk]; exact hc1), if_neg hc1]
          rw [show distance f1.hash pos cap = distance f2.hash pos cap from by
            rw [hfh]]
          by_cases hc2 : distance f2.hash pos cap < dist
          · rw [if_pos hc2, if_pos hc2]
            exact ih _ _ _ _ _ _
              (esim_set h (by unfold stripDist; simp [hk, hv, hh]) pos)
              (by unfold stripDist; simp [hfk, hfv, hfh])
          · rw [if_neg hc2, if_neg hc2]
            exact ih _ _ _ _ _ _ h (by unfold stripDist; simp [hk, hv, hh])

end DistIrrelevance

section DistIrrelevanceMaps

variable {K V : Type} [DecidableEq K]

open HashMap

/-- The dist-free content of an entire map state. -/
def stripMap (m : HashMap K V) :
    Nat × Nat × Nat × Nat × Nat × List (Option (K × V × Nat)) :=
  (m.len, m.capacity, m.threshold, m.mask, m.load_factor,
   m.elems.map (Option.map stripDist))

theorem sameUpToDist_iff_strip {m1 m2 : HashMap K V} :
    SameUpToDist m1 m2 ↔ stripMap m1 = stripMap m2 := by
  unfold SameUpToDist stripMap ESim
  constructor
  · rintro ⟨h1, h2, h3, h4, h5, h6⟩
    rw [h1, h2, h3, h4, h5, h6]
  · intro h
    refine ⟨congrArg (fun p => p.1) h, congrArg (fun p => p.2.1) h,
      congrArg (fun p => p.2.2.1) h, congrArg (fun p => p.2.2.2.1) h,
      congrArg (fun p => p.2.2.2.2.1) h, congrArg (fun p => p.2.2.2.2.2) h⟩

theorem index_congr (ab : K → List Nat) {m1 m2 : HashMap K V}
    (h : SameUpToDist m1 m2) (q : K) : index ab m1 q = index ab m2 q := by
  obtain ⟨hlen, hcap, hthr, hmask, hlf, hes⟩ := h
  show index_loop m1.capacity m1.mask (hash_key ab q) q (m1.capacity + 1)
      m1.elems (hash_key ab q &&& m1.mask) 0
    = index_loop m2.capacity m2.mask (hash_key ab q) q (m2.capacity + 1)
      m2.elems (hash_key ab q &&& m2.mask) 0
  rw [hcap, hmask]
  exact index_loop_congr _ _ _ _ _ hes

theorem getD_value_congr {l1 l2 : List (Option (HashElem K V))} (hes : ESim l1 l2)
    (i : Nat) :
    (l1.getD i none).map (fun e => e.value) = (l2.getD i none).map (fun e => e.value) := by
  have h2 := congrArg (Option.map (fun p : K × V × Nat => p.2.1)) (esim_getD hes i)
  rw [Option.map_map, Option.map_map] at h2
  exact h2

theorem get_congr (ab : K → List Nat) {m1 m2 : HashMap K V}
    (h : SameUpToDist m1 m2) (q : K) : get ab m1 q = get ab m2 q := by
  unfold HashMap.get
  rw [index_congr ab h q]
  cases index ab m2 q with
  | none => rfl
  | some oi =>
    cases oi with
    | none => rfl
    | some i => exact getD_value_congr h.2.2.2.2.2 i

theorem get_mut_congr (ab : K → List Nat) {m1 m2 : HashMap K V}
    (h : SameUpToDist m1 m2) (q : K) : get_mut ab m1 q = get_mut ab m2 q := by
  unfold HashMap.get_mut
  rw [index_congr ab h q]
  cases index ab m2 q with
  | none => rfl
  | some oi =>
    cases oi with
    | none => rfl
    | some i => exact getD_value_congr h.2.2.2.2.2 i

theorem insert_raw_congr {m1 m2 : HashMap K V} (h : SameUpToDist m1 m2)
    (hsh : Nat) (k : K) (v : V) :
    (insert_raw m1 hsh k v).map (fun r => (stripMap r.1, r.2))
      = (insert_raw m2 hsh k v).map (fun r => (stripMap r.1, r.2)) := by
  obtain ⟨hlen, hcap, hthr, hmask, hlf, hes⟩ := h
  unfold insert_raw
  have hloop := @insert_raw_loop_congr K V _ m2.capacity m2.mask
    m2.capacity m1.elems m2.elems (hsh &&& m2.mask) 0
    ⟨0, k, v, hsh⟩ ⟨0, k, v, hsh⟩ hes rfl
  rw [hcap, hmask]
  cases hr1 : insert_raw_loop m2.capacity m2.mask m2.capacity m1.elems
      (hsh &&& m2.mask) 0 ⟨0, k, v, hsh⟩ with
  | none =>
    rw [hr1] at hloop
    cases hr2 : insert_raw_loop m2.capacity m2.mask m2.capacity m2.elems
        (hsh &&& m2.mask) 0 ⟨0, k, v, hsh⟩ with
    | none => rfl
    | some r2 =>
      rw [hr2] at hloop
      exact absurd hloop (by simp)
  | some r1 =>
    rw [hr1] at hloop
    cases hr2 : insert_raw_loop m2.capacity m2.mask m2.capacity m2.elems
        (hsh &&& m2.mask) 0 ⟨0, k, v, hsh⟩ with
    | none =>
      rw [hr2] at hloop
      exact absurd hloop (by simp)
    | some r2 =>
      rw [hr2] at hloop
      simp only [Option.map_some'] at hloop
      injection hloop with hloop
      have hels : r1.1.map (Option.map stripDist) = r2.1.map (Option.map stripDist) :=
        congrArg (fun p => p.1) hloop
      have hflag : r1.2 = r2.2 := congrArg (fun p => p.2) hloop
      simp only [Option.map_some']
      show some ((if r1.2 = true then m1.len else m1.len + 1, m2.capacity,
          m1.threshold, m2.mask, m1.load_factor,
          r1.1.map (Option.map stripDist)), r1.2)
        = some ((if r2.2 = true then m2.len else m2.len + 1, m2.capacity,
          m2.threshold, m2.mask, m2.load_factor,
          r2.1.map (Option.map stripDist)), r2.2)
      rw [hflag, hlen, hthr, hlf, hels]

theorem grow_fold_congr :
    ∀ (r1 r2 : List (Option (HashElem K V))) (a1 a2 : HashMap K V),
      ESim r1 r2 → stripMap a1 = stripMap a2 →
      (r1.foldlM
        (fun (acc : HashMap K V) (oe : Option (HashElem K V)) =>
          match oe with
          | some e => (insert_raw acc e.hash e.key e.value).map Prod.fst
          | none => some acc) a1).map stripMap
      = (r2.foldlM
        (fun (acc : HashMap K V) (oe : Option (HashElem K V)) =>
          match oe with
          | some e => (insert_raw acc e.hash e.key e.value).map Prod.fst
          | none => some acc) a2).map stripMap := by
  intro r1
  induction r1 with
  | nil =>
    intro r2 a1 a2 hes hstr
    cases r2 with
    | nil => simpa using hstr
    | cons o2 t2 => exact absurd hes (by unfold ESim; simp)
  | cons o1 t1 ih =>
    intro r2 a1 a2 hes hstr
    cases r2 with
    | nil => exact absurd hes (by unfold ESim; simp)
    | cons o2 t2 =>
      have hh : Option.map stripDist o1 = Option.map stripDist o2 := by
        unfold ESim at hes
        simpa using congrArg
          (fun l : List (Option (K × V × Nat)) => l.headD none) hes
      have ht : ESim t1 t2 := by
        unfold ESim at hes ⊢
        simpa using congrArg List.tail hes
      rw [List.foldlM_cons, List.foldlM_cons]
      cases ho1 : o1 with
      | none =>
        cases ho2 : o2 with
        | none => exact ih t2 a1 a2 ht hstr
        | some e2 => rw [ho1, ho2] at hh; exact absurd hh (by simp)
      | some e1 =>
        cases ho2 : o2 with
        | none => rw [ho1, ho2] at hh; exact absurd hh (by simp)
        | some e2 =>
          rw [ho1, ho2] at hh
          simp only [Option.map_some'] at hh
          injection hh with hh
          have hk : e1.key = e2.key := congrArg (fun p : K × V × Nat => p.1) hh
          have hv : e1.value = e2.value :=
            congrArg (fun p : K × V × Nat => p.2.1) hh
          have hhh : e1.hash = e2.hash :=
            congrArg (fun p : K × V × Nat => p.2.2) hh
          have hrawc := insert_raw_congr (sameUpToDist_iff_strip.mpr hstr)
            e2.hash e2.key e2.value
          show ((insert_raw a1 e1.hash e1.key e1.value).map Prod.fst >>=
              fun b => t1.foldlM _ b).map stripMap
            = ((insert_raw a2 e2.hash e2.key e2.value).map Prod.fst >>=
              fun b => t2.foldlM _ b).map stripMap
          rw [hk, hv, hhh]
          cases hr1 : insert_raw a1 e2.hash e2.key e2.value with
          | none =>
            rw [hr1] at hrawc
            cases hr2 : insert_raw a2 e2.hash e2.key e2.value with
            | none => rfl
            | some r2 =>
              rw [hr2] at hrawc
              exact absurd hrawc (by simp)
          | some r1 =>
            rw [hr1] at hrawc
            cases hr2 : insert_raw a2 e2.hash e2.key e2.value with
            | none =>
              rw [hr2] at hrawc
              exact absurd hrawc (by simp)
            | some r2 =>
              rw [hr2] at hrawc
              simp only [Option.map_some'] at hrawc
              injection hrawc with hrawc
              have hstr2 : stripMap r1.1 = stripMap r2.1 :=
                congrArg (fun p => p.1) hrawc
              exact ih t2 r1.1 r2.1 ht hstr2

theorem grow_congr {m1 m2 : HashMap K V} (h : SameUpToDist m1 m2) :
    (grow m1).map stripMap = (grow m2).map stripMap := by
  obtain ⟨hlen, hcap, hthr, hmask, hlf, hes⟩ := h
  unfold grow
  rw [hcap, hlf]
  cases hwf : with_capacity_and_factor K V (m2.capacity * 2) m2.load_factor with
  | none => rfl
  | some fresh =>
    show ((some fresh).bind _).map stripMap = ((some fresh).bind _).map stripMap
    rw [Option.some_bind, Option.some_bind]
    exact grow_fold_congr m1.elems m2.elems fresh fresh hes rfl

theorem insert_congr (ab : K → List Nat) {m1 m2 : HashMap K V}
    (h : SameUpToDist m1 m2) (k : K) (v : V) :
    (HashMap.insert ab m1 k v).map stripMap
      = (HashMap.insert ab m2 k v).map stripMap := by
  have hc := h
  obtain ⟨hlen, hcap, hthr, hmask, hlf, hes⟩ := hc
  unfold HashMap.insert
  rw [hthr, hlen]
  have hpre : ((if m2.threshold < m2.len then grow m1 else some m1)).map stripMap
      = ((if m2.threshold < m2.len then grow m2 else some m2)).map stripMap := by
    by_cases hg : m2.threshold < m2.len
    · rw [if_pos hg, if_pos hg]
      exact grow_congr h
    · rw [if_neg hg, if_neg hg]
      simp only [Option.map_some']
      rw [sameUpToDist_iff_strip.mp h]
  cases h1 : (if m2.threshold < m2.len then grow m1 else some m1) with
  | none =>
    rw [h1] at hpre
    cases h2 : (if m2.threshold < m2.len then grow m2 else some m2) with
    | none => rfl
    | some mb =>
      rw [h2] at hpre
      exact absurd hpre (by simp)
  | some ma =>
    rw [h1] at hpre
    cases h2 : (if m2.threshold < m2.len then grow m2 else some m2) with
    | none =>
      rw [h2] at hpre
      exact absurd hpre (by simp)
    | some mb =>
      rw [h2] at hpre
      simp only [Option.map_some'] at hpre
      injection hpre with hpre
      rw [Option.some_bind, Option.some_bind]
      have hab : SameUpToDist ma mb := sameUpToDist_iff_strip.mpr hpre
      have hrawc := insert_raw_congr hab (hash_key ab k) k v
      cases hr1 : insert_raw ma (hash_key ab k) k v with
      | none =>
        rw [hr1] at hrawc
        cases hr2 : insert_raw mb (hash_key ab k) k v with
        | none => rfl
        | some r2 =>
          rw [hr2] at hrawc
          exact absurd hrawc (by simp)
      | some r1 =>
        rw [hr1] at hrawc
        cases hr2 : insert_raw mb (hash_key ab k) k v with
        | none =>
          rw [hr2] at hrawc
          exact absurd hrawc (by simp)
        | some r2 =>
          rw [hr2] at hrawc
          simp only [Option.map_some'] at hrawc
          injection hrawc with hrawc
          simp only [Option.map_some']
          rw [show (stripMap r1.1) = stripMap r2.1 from congrArg (fun p => p.1) hrawc]

end DistIrrelevanceMaps

section Decidability

variable {K V : Type} [DecidableEq K]

open HashMap

instance decidableForallOption {α : Type} (o : Option α) (P : α → Prop)
    [∀ a, Decidable (P a)] : Decidable (∀ a, o = some a → P a) :=
  match o with
  | none => isTrue (fun a h => Option.noConfusion h)
  | some x =>
    decidable_of_iff (P x)
      ⟨fun hp a h => by injection h with h; exact h ▸ hp, fun h => h x rfl⟩

instance decidableExistsOption {α : Type} (o : Option α) (P : α → Prop)
    [∀ a, Decidable (P a)] : Decidable (∃ a, o = some a ∧ P a) :=
  match o with
  | none => isFalse (by rintro ⟨a, h, _⟩; exact Option.noConfusion h)
  | some x =>
    decidable_of_iff (P x)
      ⟨fun hp => ⟨x, rfl, hp⟩, by rintro ⟨a, h, hp⟩; injection h with h; exact h ▸ hp⟩

instance decidableHashOK (ab : K → List Nat) (elems : List (Option (HashElem K V))) :
    Decidable (HashOK ab elems) :=
  decidable_of_iff
    (∀ i, i < elems.length → ∀ e, elems.getD i none = some e →
      e.hash = hash_key ab e.key)
    ⟨fun hb i e hget => hb i (lt_length_of_getD_some elems i e hget) e hget,
     fun h i _ e hget => h i e hget⟩

instance decidableUniq (elems : List (Option (HashElem K V))) :
    Decidable (Uniq elems) :=
  decidable_of_iff
    (∀ i, i < elems.length → ∀ j, j < elems.length → ∀ e, elems.getD i none = some e →
      ∀ f, elems.getD j none = some f → i ≠ j → e.key ≠ f.key)
    ⟨fun hb i j e f hi hj hij =>
      hb i (lt_length_of_getD_some elems i e hi) j
        (lt_length_of_getD_some elems j f hj) e hi f hj hij,
     fun h i _ j _ e hi f hj hij => h i j e f hi hj hij⟩

instance decidableReach (elems : List (Option (HashElem K V))) (cap : Nat) :
    Decidable (Reach elems cap) :=
  decidable_of_iff
    (∀ i, i < elems.length → ∀ e, elems.getD i none = some e →
      ∀ t, t < distance e.hash i cap →
        ∃ f, elems.getD (pathPos e.hash t cap) none = some f ∧
          t ≤ distance f.hash (pathPos e.hash t cap) cap)
    ⟨fun hb i e hget => hb i (lt_length_of_getD_some elems i e hget) e hget,
     fun h i _ e hget => h i e hget⟩

instance decidableDistLE (elems : List (Option (HashElem K V))) (cap : Nat) :
    Decidable (DistLE elems cap) :=
  decidable_of_iff
    (∀ i, i < elems.length → ∀ e, elems.getD i none = some e →
      e.dist ≤ distance e.hash i cap)
    ⟨fun hb i e hget => hb i (lt_length_of_getD_some elems i e hget) e hget,
     fun h i _ e hget => h i e hget⟩

instance decidableCoherent (ab : K → List Nat) (m : HashMap K V) :
    Decidable (Coherent ab m) :=
  decidable_of_iff _ (coherent_iff ab m).symm

end Decidability

section LastValLemmas

variable {K V : Type} [DecidableEq K]

theorem lastVal_cons_elim (kv : K × V) (rest : List (K × V)) (q : K) :
    lastVal (kv :: rest) q
      = (lastVal rest q).elim (if kv.1 = q then some kv.2 else none) some := by
  rw [show lastVal (kv :: rest) q
      = rest.foldl (fun acc kv => if kv.1 = q then some kv.2 else acc)
        (if kv.1 = q then some kv.2 else none) from rfl]
  rw [lastVal_foldl_acc]

theorem lastVal_isSome_of_mem {ops : List (K × V)} {k : K}
    (hmem : k ∈ ops.map Prod.fst) : ∃ v, lastVal ops k = some v := by
  induction ops with
  | nil => simp at hmem
  | cons kv rest ih =>
    rw [lastVal_cons_elim]
    cases hlast : lastVal rest k with
    | some v => exact ⟨v, rfl⟩
    | none =>
      rw [show ((kv :: rest).map Prod.fst) = kv.1 :: rest.map Prod.fst from rfl,
        List.mem_cons] at hmem
      rcases hmem with heq | hmem2
      · exact ⟨kv.2, by simp [heq.symm]⟩
      · obtain ⟨v, hv⟩ := ih hmem2
        rw [hlast] at hv
        exact Option.noConfusion hv

theorem lastVal_none_of_not_mem {ops : List (K × V)} {k : K}
    (hmem : k ∉ ops.map Prod.fst) : lastVal ops k = none := by
  induction ops with
  | nil => rfl
  | cons kv rest ih =>
    rw [show ((kv :: rest).map Prod.fst) = kv.1 :: rest.map Prod.fst from rfl,
      List.mem_cons] at hmem
    push_neg at hmem
    rw [lastVal_cons_elim, ih hmem.2]
    show (if kv.1 = k then some kv.2 else none) = none
    rw [if_neg (fun hc => hmem.1 hc.symm)]

end LastValLemmas

section WeakInvariant

variable {K V : Type} [DecidableEq K]

open HashMap

/-- The structural part of the table invariant: power-of-two geometry with
matching slot-array length and mask, `len` counting the occupied slots, and
the Robin Hood slot invariants (correct hashes, distinct keys, reachable
entries, bounded `dist`).  Unlike `Coherent` it places no constraint on the
load factor or threshold, so it holds in every state reachable from any
`with_capacity_and_factor(c, lf)` with power-of-two `c ≥ 2`, whatever `lf`. -/
structure WeakInv (ab : K → List Nat) (m : HashMap K V) : Prop where
  two_le : 2 ≤ m.capacity
  pow : 2 ^ Nat.log2 m.capacity = m.capacity
  elen : m.elems.length = m.capacity
  emask : m.mask = m.capacity - 1
  len_eq : m.len = occL m.elems
  hok : HashOK ab m.elems
  uq : Uniq m.elems
  rch : Reach m.elems m.capacity
  dle : DistLE m.elems m.capacity

theorem weakInv_replicate (ab : K → List Nat) {c lf w : Nat} (hc : c = 2 ^ w)
    (hw : 1 ≤ w) :
    WeakInv ab ({ elems := List.replicate c none
                  len := 0
                  capacity := c
                  threshold := c * lf / 100
                  mask := c - 1
                  load_factor := lf } : HashMap K V) := by
  refine ⟨?_, ?_, ?_, rfl, ?_, ?_, ?_, ?_, ?_⟩
  · rw [hc]
    have : (1 : Nat) ≤ 2 ^ w → 2 ^ 1 ≤ 2 ^ w := fun _ =>
      Nat.pow_le_pow_right (by omega) hw
    simpa using this (Nat.one_le_two_pow)
  · rw [hc, Nat.log2_two_pow]
  · exact List.length_replicate c none
  · rw [occL_replicate]
  · intro i e hget
    rw [getD_replicate_none] at hget
    exact Option.noConfusion hget
  · intro i j e f hget _ _
    rw [getD_replicate_none] at hget
    exact Option.noConfusion hget
  · intro i e hget
    rw [getD_replicate_none] at hget
    exact Option.noConfusion hget
  · intro i e hget
    rw [getD_replicate_none] at hget
    exact Option.noConfusion hget

theorem with_capacity_and_factor_weak (ab : K → List Nat) {c lf w : Nat}
    (hc : c = 2 ^ w) (hw : 1 ≤ w) {m : HashMap K V}
    (hm : with_capacity_and_factor K V c lf = some m) :
    WeakInv ab m ∧ m.capacity = c ∧ m.load_factor = lf ∧ m.len = 0 ∧
    (∀ q v h, ¬ HasPair m.elems q v h) := by
  unfold with_capacity_and_factor at hm
  obtain ⟨p, hp, hmk⟩ := Option.map_eq_some'.mp hm
  have h2c : 2 ≤ c := by
    rw [hc]
    calc (2 : Nat) = 2 ^ 1 := rfl
      _ ≤ 2 ^ w := Nat.pow_le_pow_right (by omega) hw
  have hpc : p = c := pow2_eq_self hc h2c hp
  rw [hpc] at hmk
  subst hmk
  refine ⟨weakInv_replicate ab hc hw, rfl, rfl, rfl, ?_⟩
  intro q v h
  rintro ⟨i, e, hget, _⟩
  rw [show ({ elems := List.replicate c none
              len := 0
              capacity := c
              threshold := c * lf / 100
              mask := c - 1
              load_factor := lf } : HashMap K V).elems
      = List.replicate c none from rfl, getD_replicate_none] at hget
  exact Option.noConfusion hget

theorem grow_fold_weak (ab : K → List Nat) :
    ∀ (rest : List (Option (HashElem K V))) (acc acc' : HashMap K V),
      WeakInv ab acc →
      (rest.filterMap id).Pairwise (fun a b => a.key ≠ b.key) →
      (∀ e : HashElem K V, some e ∈ rest → ∀ v h, ¬ HasPair acc.elems e.key v h) →
      (∀ e : HashElem K V, some e ∈ rest → e.hash = hash_key ab e.key) →
      rest.foldlM
        (fun acc oe =>
          match oe with
          | some e => (insert_raw acc e.hash e.key e.value).map Prod.fst
          | none => some acc) acc = some acc' →
      WeakInv ab acc' ∧ acc'.capacity = acc.capacity ∧
      acc'.load_factor = acc.load_factor ∧
      acc'.len = acc.len + occL rest ∧
      (∀ q v h, HasPair acc'.elems q v h ↔
        (HasPair acc.elems q v h ∨ ∃ e : HashElem K V, some e ∈ rest ∧
          e.key = q ∧ e.value = v ∧ e.hash = h)) := by
  intro rest
  induction rest with
  | nil =>
    intro acc acc' hC _ _ _ hfold
    simp only [List.foldlM_nil] at hfold
    injection hfold with hfold
    subst hfold
    refine ⟨hC, rfl, rfl, by simp [occL_nil], ?_⟩
    simp
  | cons o rest ih =>
    intro acc acc' hC hpw hfr hsh hfold
    rw [List.foldlM_cons] at hfold
    cases o with
    | none =>
      have hres := ih acc acc' hC (by simpa using hpw)
        (fun e hm => hfr e (List.mem_cons_of_mem _ hm))
        (fun e hm => hsh e (List.mem_cons_of_mem _ hm)) hfold
      obtain ⟨h1, h2, h4, h5, h6⟩ := hres
      refine ⟨h1, h2, h4, by rw [occL_cons]; simpa using h5, ?_⟩
      intro q v h
      rw [h6 q v h]
      constructor
      · rintro (hp | ⟨e, hm, he⟩)
        · exact Or.inl hp
        · exact Or.inr ⟨e, List.mem_cons_of_mem _ hm, he⟩
      · rintro (hp | ⟨e, hm, he⟩)
        · exact Or.inl hp
        · rcases List.mem_cons.mp hm with heq | hm2
          · exact absurd heq.symm (by simp)
          · exact Or.inr ⟨e, hm2, he⟩
    | some e =>
      have hme : (some e) ∈ (some e :: rest) := List.mem_cons_self _ _
      obtain ⟨acc1, hstep, hrest⟩ := Option.bind_eq_some.mp hfold
      obtain ⟨r, hr, hfst⟩ := Option.map_eq_some'.mp hstep
      rw [hsh e hme] at hr
      have hspec := insert_raw_spec ab hC.pow.symm
        hC.elen hC.emask hC.hok hC.uq hC.rch hC.dle e.key e.value hr
      obtain ⟨slen, scap, smask, sthr, slf, sOK, sU, sR, sDL, sflag, slen2, socc,
        sHP⟩ := hspec
      have hb : r.2 = false := by
        cases hb2 : r.2
        · rfl
        · exfalso
          obtain ⟨v', h', hp⟩ := sflag.mp hb2
          exact hfr e hme v' h' hp
      subst hfst
      have hlen1 : r.1.len = acc.len + 1 := by
        rw [slen2, hb]
        simp
      have hocc1 : occL r.1.elems = occL acc.elems + 1 := by
        rw [socc, hb]
        simp
      have hpwt : (rest.filterMap id).Pairwise (fun a b => a.key ≠ b.key) := by
        rw [show List.filterMap id (some e :: rest) = e :: List.filterMap id rest
          from rfl, List.pairwise_cons] at hpw
        exact hpw.2
      have hhead : ∀ f : HashElem K V, some f ∈ rest → e.key ≠ f.key := by
        intro f hf
        rw [show List.filterMap id (some e :: rest) = e :: List.filterMap id rest
          from rfl, List.pairwise_cons] at hpw
        exact hpw.1 f (List.mem_filterMap.mpr ⟨some f, hf, rfl⟩)
      have hC1 : WeakInv ab r.1 := by
        refine ⟨?_, ?_, ?_, ?_, ?_, sOK, sU, ?_, ?_⟩
        · rw [scap]; exact hC.two_le
        · rw [scap]; exact hC.pow
        · rw [slen, scap]
        · rw [smask, scap, hC.emask]
        · rw [hlen1, hocc1, hC.len_eq]
        · rw [scap]; exact sR
        · rw [scap]; exact sDL
      have hres := ih r.1 acc' hC1 hpwt
        (by
          intro f hf v h hp
          rw [sHP f.key v h] at hp
          rcases hp with ⟨hfk, _, _⟩ | ⟨hp2, _⟩
          · exact hhead f hf hfk.symm
          · exact hfr f (List.mem_cons_of_mem _ hf) v h hp2)
        (fun f hm => hsh f (List.mem_cons_of_mem _ hm)) hrest
      obtain ⟨h1, h2, h4, h5, h6⟩ := hres
      refine ⟨h1, by rw [h2, scap], by rw [h4, slf], ?_, ?_⟩
      · rw [h5, hlen1, occL_cons]
        simp
        omega
      · intro q v h
        rw [h6 q v h]
        constructor
        · rintro (hp | ⟨f, hm, hfk, hfv, hfh⟩)
          · rw [sHP q v h] at hp
            rcases hp with ⟨rfl, rfl, rfl⟩ | ⟨hp2, _⟩
            · exact Or.inr ⟨e, hme, rfl, rfl, hsh e hme⟩
            · exact Or.inl hp2
          · exact Or.inr ⟨f, List.mem_cons_of_mem _ hm, hfk, hfv, hfh⟩
        · rintro (hp | ⟨f, hm, hfk, hfv, hfh⟩)
          · rw [sHP q v h]
            refine Or.inl (Or.inr ⟨hp, ?_⟩)
            intro hqk
            subst hqk
            obtain ⟨i, g, hget, hgk, _, _⟩ := hp
            exact hfr e hme _ _ ⟨i, g, hget, hgk, rfl, rfl⟩
          · rcases List.mem_cons.mp hm with heq | hm2
            · injection heq with heq
              subst heq
              rw [sHP q v h]
              exact Or.inl (Or.inl ⟨hfk.symm, hfv.symm, by rw [← hfh, hsh f hme]⟩)
            · exact Or.inr ⟨f, hm2, hfk, hfv, hfh⟩

theorem grow_weak (ab : K → List Nat) {m m' : HashMap K V} (hW : WeakInv ab m)
    (hg : grow m = some m') :
    WeakInv ab m' ∧ m'.capacity = 2 * m.capacity ∧
    m'.load_factor = m.load_factor ∧ m'.len = m.len ∧
    (∀ q v h, HasPair m'.elems q v h ↔ HasPair m.elems q v h) := by
  unfold grow at hg
  obtain ⟨fresh, hwf, hfold⟩ := Option.bind_eq_some.mp hg
  have hc2 : m.capacity * 2 = 2 ^ (Nat.log2 m.capacity + 1) := by
    rw [Nat.pow_succ, hW.pow]
  have hw1 : 1 ≤ Nat.log2 m.capacity + 1 := by omega
  obtain ⟨hWf, hfcap, hflf, hflen, hfpairs⟩ :=
    with_capacity_and_factor_weak ab hc2 hw1 hwf
  have hsh : ∀ e : HashElem K V, some e ∈ m.elems → e.hash = hash_key ab e.key := by
    intro e hmem
    obtain ⟨i, hi, hget⟩ := List.mem_iff_getElem.mp hmem
    exact hW.hok i e (by rw [List.getD_eq_getElem m.elems none hi, hget])
  obtain ⟨h1, h2, h4, h5, h6⟩ := grow_fold_weak ab m.elems fresh m' hWf
    (uniq_pairwise hW.uq)
    (fun e _ v h hp => hfpairs e.key v h hp) hsh hfold
  refine ⟨h1, ?_, ?_, ?_, ?_⟩
  · rw [h2, hfcap]; ring
  · rw [h4, hflf]
  · rw [h5, hflen, hW.len_eq]; simp
  intro q v h
  rw [h6 q v h]
  constructor
  · rintro (hp | ⟨e, hm2, hk, hv, hh⟩)
    · exact absurd hp (hfpairs q v h)
    · rw [← hk, ← hv, ← hh]
      exact hasPair_iff_mem.mpr ⟨e, hm2, rfl, rfl, rfl⟩
  · intro hp
    obtain ⟨e, hm2, hk, hv, hh⟩ := hasPair_iff_mem.mp hp
    exact Or.inr ⟨e, hm2, hk, hv, hh⟩

theorem insert_weak (ab : K → List Nat) {m m' : HashMap K V} (hW : WeakInv ab m)
    {k : K} {v : V} (h : HashMap.insert ab m k v = some m') : WeakInv ab m' := by
  unfold HashMap.insert at h
  obtain ⟨m1, hm1, hraw⟩ := Option.bind_eq_some.mp h
  obtain ⟨r, hr, hfst⟩ := Option.map_eq_some'.mp hraw
  subst hfst
  have hW1 : WeakInv ab m1 := by
    by_cases hgrow : m.threshold < m.len
    · rw [if_pos hgrow] at hm1
      exact (grow_weak ab hW hm1).1
    · rw [if_neg hgrow] at hm1
      injection hm1 with hm1
      subst hm1
      exact hW
  have hspec := insert_raw_spec ab hW1.pow.symm
    hW1.elen hW1.emask hW1.hok hW1.uq hW1.rch hW1.dle k v hr
  obtain ⟨slen, scap, smask, sthr, slf, sOK, sU, sR, sDL, sflag, slen2, socc,
    sHP⟩ := hspec
  refine ⟨?_, ?_, ?_, ?_, ?_, sOK, sU, ?_, ?_⟩
  · rw [scap]; exact hW1.two_le
  · rw [scap]; exact hW1.pow
  · rw [slen, scap]
  · rw [smask, scap, hW1.emask]
  · rw [slen2, socc, hW1.len_eq]
  · rw [scap]; exact sR
  · rw [scap]; exact sDL

theorem foldl_insert_weak (ab : K → List Nat) :
    ∀ (ops : List (K × V)) (m m' : HashMap K V),
      WeakInv ab m →
      ops.foldlM (fun acc kv => HashMap.insert ab acc kv.1 kv.2) m = some m' →
      WeakInv ab m' := by
  intro ops
  induction ops with
  | nil =>
    intro m m' hW hfold
    simp only [List.foldlM_nil] at hfold
    injection hfold with hfold
    subst hfold
    exact hW
  | cons kv rest ih =>
    intro m m' hW hfold
    rw [List.foldlM_cons] at hfold
    obtain ⟨m1, h1, hrest⟩ := Option.bind_eq_some.mp hfold
    exact ih m1 m' (insert_weak ab hW h1) hrest

theorem insertAllFrom_weak (ab : K → List Nat) {c lf w : Nat} (hc : c = 2 ^ w)
    (hw : 1 ≤ w) (ops : List (K × V)) {m : HashMap K V}
    (hm : HashMap.insertAllFrom ab (HashMap.with_capacity_and_factor K V c lf)
      ops = some m) :
    WeakInv ab m := by
  unfold HashMap.insertAllFrom at hm
  obtain ⟨m0, hstart, hfold⟩ := Option.bind_eq_some.mp hm
  exact foldl_insert_weak ab ops m0 m
    ((with_capacity_and_factor_weak ab hc hw hstart).1) hfold

end WeakInvariant

section ClaimSupport

variable {K V : Type} [DecidableEq K]

open HashMap

theorem insertAllFrom_spec (ab : K → List Nat) (c lf w : Nat) (hc : c = 2 ^ w)
    (hw : 1 ≤ w) (hlf : lf < 100) (hge : 100 ≤ c * lf) (ops : List (K × V))
    {m : HashMap K V}
    (hm : HashMap.insertAllFrom ab
      (HashMap.with_capacity_and_factor K V c lf) ops = some m) :
    Coherent ab m ∧
    (∀ q v, (∃ h, HasPair m.elems q v h) ↔ lastVal ops q = some v) ∧
    m.len = (ops.map Prod.fst).dedup.length := by
  unfold HashMap.insertAllFrom at hm
  obtain ⟨m0, hstart, hfold⟩ := Option.bind_eq_some.mp hm
  obtain ⟨hC0, _, _, _, hlen0, hnop⟩ :=
    with_capacity_and_factor_spec ab hc hw hlf hge hstart
  have hf0 : ∀ q v, (∃ h, HasPair m0.elems q v h) ↔
      (fun _ : K => (none : Option V)) q = some v := by
    intro q v
    exact iff_of_false (by rintro ⟨h, hp⟩; exact hnop q v h hp)
      (fun hc2 => Option.noConfusion hc2)
  obtain ⟨hC, hmodel, hlen⟩ := foldl_insert_spec ab ops m0 m _ hC0 hf0 hfold
  refine ⟨hC, ?_, ?_⟩
  · intro q v
    rw [hmodel q v, updList_none]
  · rw [hlen, hlen0, keyCount_none_eq_dedup]
    simp

end ClaimSupport

section ClaimsA

open HashMap

/-- Operation sequence used by the C1 witness. -/
def c1ops : List (List Nat × Nat) := [([1], 10), ([2], 20), ([1], 30)]

/-- C1: for every sequence of `insert(key, value)` calls on a map created by
`new()` whose execution completes (no panic or divergence, which is what
`isSome` states), and for every key `k` that was inserted, `get k` returns
`some` of the exact last value inserted for `k` — including when the sequence
crosses growth boundaries. -/
theorem c1_round_trip {V : Type} (ops : List (List Nat × V)) (k : List Nat)
    (hsome : (HashMap.insertAllFrom id (HashMap.new (List Nat) V) ops).isSome
      = true)
    (hmem : k ∈ ops.map Prod.fst) :
    ∃ v, lastVal ops k = some v ∧
      (HashMap.insertAllFrom id (HashMap.new (List Nat) V) ops).bind
        (fun m => HashMap.get id m k) = some v := by
  obtain ⟨m, hm⟩ := Option.isSome_iff_exists.mp hsome
  obtain ⟨hC, hmodel, _⟩ := insertAllFrom_spec id 256 90 8 (by norm_num)
    (by omega) (by omega) (by norm_num) ops hm
  obtain ⟨v, hv⟩ := lastVal_isSome_of_mem hmem
  obtain ⟨h, hp⟩ := (hmodel k v).mpr hv
  refine ⟨v, hv, ?_⟩
  rw [hm, Option.some_bind]
  exact get_eq_of_pair id hC hp

/-- Witness for C1: three concrete inserts on `new()`, the key `[1]` twice;
`get [1]` returns the last value 30. -/
theorem c1_round_trip_witness :
    ((HashMap.insertAllFrom id (HashMap.new (List Nat) Nat) c1ops).isSome
      = true) ∧
    [1] ∈ c1ops.map Prod.fst ∧
    (∃ v, lastVal c1ops [1] = some v ∧
      (HashMap.insertAllFrom id (HashMap.new (List Nat) Nat) c1ops).bind
        (fun m => HashMap.get id m [1]) = some v) :=
  ⟨by decide, by decide, c1_round_trip c1ops [1] (by decide) (by decide)⟩

/-- The property asserted by C2: every occupied slot's stored `dist` equals
the forward wraparound distance from its hash's home slot. -/
def DistExact {K V : Type} (m : HashMap K V) : Prop :=
  ∀ i, i < m.elems.length → ∀ e, m.elems.getD i none = some e →
    e.dist = distance e.hash i m.capacity

instance decidableDistExact {K V : Type} (m : HashMap K V) :
    Decidable (DistExact m) :=
  decidable_of_iff
    (∀ i, i < m.elems.length → ∀ e, m.elems.getD i none = some e →
      e.dist = distance e.hash i m.capacity) Iff.rfl

/-- Operation sequence used by the C2 counterexample: keys `[0]`, `[1]`,
`[12]` hash to home slot 0 of an 8-slot table and `[7]` to home slot 1, so
inserting `[12]` last triggers a Robin Hood swap. -/
def c2ops : List (List Nat × Nat) := [([0], 0), ([1], 1), ([7], 2), ([12], 3)]

/-- The reachable state refuting C2. -/
def c2state : Option (HashMap (List Nat) Nat) :=
  HashMap.insertAllFrom id
    (HashMap.with_capacity_and_factor (List Nat) Nat 8 90) c2ops

/-- C2 counterexample: in the state reached by the public operations
`with_capacity_and_factor(8, 90)` followed by the four inserts of `c2ops`,
some occupied slot's stored `dist` differs from the wraparound-distance
formula — the swap branch of `insert_raw` stores the displaced occupant's
distance instead of the incoming entry's. -/
theorem c2_counterexample : c2state.elim False (fun m => ¬ DistExact m) := by
  have h : (c2state.map fun m => decide (DistExact m)) = some false := by decide
  cases hs : c2state with
  | none => rw [hs] at h; exact Option.noConfusion h
  | some m =>
    rw [hs] at h
    injection h with h
    exact of_decide_eq_false h

/-- C2 amended: in every state reachable by inserts from any
`with_capacity_and_factor(c, lf)` whose requested capacity is a power of two
(at least 2) — the load factor is arbitrary, so this covers `new()`, every
`with_capacity(2^k)` and low-load-factor tables such as
`with_capacity_and_factor(2, 10)` — every occupied slot's stored `dist` is at
most `(i + capacity - (hash & mask)) & mask`; equality can fail after a Robin
Hood swap, which stores the displaced occupant's distance. -/
theorem c2_amended_dist_le {V : Type} (c lf w : Nat) (hc : c = 2 ^ w)
    (hw : 1 ≤ w) (ops : List (List Nat × V)) :
    (HashMap.insertAllFrom id
        (HashMap.with_capacity_and_factor (List Nat) V c lf) ops).elim True
      (fun m => ∀ i, i < m.elems.length → ∀ e, m.elems.getD i none = some e →
        e.dist ≤ distance e.hash i m.capacity) := by
  cases hs : HashMap.insertAllFrom id
      (HashMap.with_capacity_and_factor (List Nat) V c lf) ops with
  | none => exact trivial
  | some m =>
    have hW := insertAllFrom_weak id hc hw ops hs
    intro i _ e hget
    exact hW.dle i e hget

/-- Witness for the amended C2 at a low-load-factor table
(`with_capacity_and_factor(2, 10)`, threshold 0, growing on every insert). -/
theorem c2_amended_dist_le_witness :
    ((2 : Nat) = 2 ^ 1 ∧ 1 ≤ 1) ∧
    ((HashMap.insertAllFrom id
        (HashMap.with_capacity_and_factor (List Nat) Nat 2 10) c2ops).elim True
      (fun m => ∀ i, i < m.elems.length → ∀ e, m.elems.getD i none = some e →
        e.dist ≤ distance e.hash i m.capacity)) :=
  ⟨⟨by decide, by decide⟩,
   c2_amended_dist_le 2 10 1 (by decide) (by decide) c2ops⟩

/-- The reachable state refuting C3: capacity 4, load factor 50
(threshold 2), three inserts of distinct keys. -/
def c3state : Option (HashMap (List Nat) Nat) :=
  HashMap.insertAllFrom id
    (HashMap.with_capacity_and_factor (List Nat) Nat 4 50)
    [([97], 0), ([98], 0), ([99], 0)]

/-- C3 counterexample: after the third insert the map has `len = 3` but
`threshold = 2`, so `len ≤ threshold` does not hold after every insert —
`insert` only grows when `len > threshold` held *before* the call. -/
theorem c3_counterexample : c3state.elim False (fun m => ¬ m.len ≤ m.threshold) := by
  have h : (c3state.map fun m => decide (m.len ≤ m.threshold)) = some false := by
    decide
  cases hs : c3state with
  | none => rw [hs] at h; exact Option.noConfusion h
  | some m =>
    rw [hs] at h
    injection h with h
    exact of_decide_eq_false h

/-- C3 amended: for every map created by `with_capacity_and_factor(c, lf)`
with `c` a power of two at least 2, `lf < 100` and `100 ≤ c * lf` — a family
that includes `new()` (256, 90) and every `with_capacity(2^k)`, k ≥ 1 —
after every completed insert sequence `len ≤ threshold + 1` holds; growth is
triggered at the start of the next insert once `len` exceeds `threshold`.
The restriction `100 ≤ c * lf` is necessary: for load factors with
`c * lf < 100` repeated doubling keeps the threshold at 0, and e.g.
`with_capacity_and_factor(4, 10)` followed by two inserts completes with
`len = 2 > threshold + 1 = 1`. -/
theorem c3_amended_len_le {V : Type} (c lf w : Nat) (hc : c = 2 ^ w)
    (hw : 1 ≤ w) (hlf : lf < 100) (hge : 100 ≤ c * lf)
    (ops : List (List Nat × V)) :
    (HashMap.insertAllFrom id
        (HashMap.with_capacity_and_factor (List Nat) V c lf) ops).elim True
      (fun m => m.len ≤ m.threshold + 1) := by
  cases hs : HashMap.insertAllFrom id
      (HashMap.with_capacity_and_factor (List Nat) V c lf) ops with
  | none => exact trivial
  | some m =>
    obtain ⟨hC, _, _⟩ := insertAllFrom_spec id c lf w hc hw hlf hge ops hs
    exact hC.len_le

/-- Operation sequence used by the amended-C3 witness: the three inserts of
the counterexample scenario, which end exactly at `len = threshold + 1`. -/
def c3ops : List (List Nat × Nat) := [([97], 0), ([98], 0), ([99], 0)]

/-- Witness for the amended C3 at the concrete counterexample scenario
(capacity 4, load factor 50, three inserts: `len = 3 = threshold + 1`). -/
theorem c3_amended_len_le_witness :
    ((4 : Nat) = 2 ^ 2 ∧ 1 ≤ 2 ∧ 50 < 100 ∧ 100 ≤ 4 * 50) ∧
    ((HashMap.insertAllFrom id
        (HashMap.with_capacity_and_factor (List Nat) Nat 4 50) c3ops).elim True
      (fun m => m.len ≤ m.threshold + 1)) :=
  ⟨⟨by decide, by decide, by decide, by decide⟩,
   c3_amended_len_le 4 50 2 (by decide) (by decide) (by decide) (by decide)
     c3ops⟩

/-- C4 counterexample: `with_capacity_and_factor(3, 90)` produces a slot
array of length 3 — not a power of two, not equal to the reported
`capacity()` of 4, and with `mask = 2 ≠ 3 - 1`-of-capacity. -/
theorem c4_counterexample :
    ¬ ((HashMap.with_capacity_and_factor (List Nat) Nat 3 90).elim False
      (fun m => (∃ k, m.elems.length = 2 ^ k) ∧ 3 ≤ m.elems.length ∧
        m.mask = m.elems.length - 1 ∧ m.capacity = m.elems.length)) := by
  intro hcl
  cases hwf : HashMap.with_capacity_and_factor (List Nat) Nat 3 90 with
  | none => rw [hwf] at hcl; exact hcl
  | some m =>
    rw [hwf] at hcl
    obtain ⟨⟨k, hk⟩, _, _, _⟩ := hcl
    have hL : (HashMap.with_capacity_and_factor (List Nat) Nat 3 90).map
        (fun m => m.elems.length) = some 3 := by decide
    rw [hwf] at hL
    injection hL with hL
    have hL2 : m.elems.length = 3 := hL
    rw [hL2] at hk
    rcases k with _ | _ | k
    · simp at hk
    · simp at hk
    · have h4 : 4 ≤ 2 ^ (k + 2) := by
        calc (4 : Nat) = 2 ^ 2 := rfl
          _ ≤ 2 ^ (k + 2) := Nat.pow_le_pow_right (by omega) (by omega)
      omega

/-- C4 amended: `with_capacity_and_factor(n, f)` sizes the slot array with
the *requested* `n` and sets `mask = n - 1` and `threshold = n * f / 100`,
while the `capacity` field (what `capacity()` reports) gets `pow2 n`, a power
of two that is at least `n` and at least 2.  Only when `n` itself is a power
of two (at least 2) do the slot-array length, `capacity` and `mask` agree as
the claim describes. -/
theorem c4_amended (K V : Type) (n f : Nat) :
    (HashMap.with_capacity_and_factor K V n f).elim True (fun m =>
      m.elems.length = n ∧ m.mask = n - 1 ∧ m.threshold = n * f / 100 ∧
      m.load_factor = f ∧
      (∃ k, m.capacity = 2 ^ k ∧ n ≤ m.capacity ∧ 2 ≤ m.capacity) ∧
      (∀ w, 1 ≤ w → n = 2 ^ w →
        m.capacity = n ∧ m.mask = m.capacity - 1 ∧
          m.elems.length = m.capacity)) := by
  unfold HashMap.with_capacity_and_factor
  cases hp : pow2 n with
  | none => exact trivial
  | some p =>
    refine ⟨List.length_replicate n none, rfl, rfl, rfl, ?_, ?_⟩
    · obtain ⟨⟨k, hk⟩, hnp, h2p⟩ := pow2_sound hp
      exact ⟨k, hk, hnp, h2p⟩
    · intro w hw hnw
      have hpn : p = n := by
        refine pow2_eq_self hnw ?_ hp
        rw [hnw]
        calc (2 : Nat) = 2 ^ 1 := rfl
          _ ≤ 2 ^ w := Nat.pow_le_pow_right (by omega) hw
      refine ⟨hpn, by rw [hpn], ?_⟩
      rw [List.length_replicate, hpn]

end ClaimsA

section ClaimsB

open HashMap

/-- `a % two64 ^^^ (a % two64) >>> k` stays below `2^64`. -/
theorem modxor_lt (y k : Nat) : y % two64 ^^^ (y % two64) >>> k < two64 := by
  have h1 : y % two64 < two64 := Nat.mod_lt _ (by norm_num [two64])
  have h2 : (y % two64) >>> k < two64 := by
    refine lt_of_le_of_lt ?_ h1
    rw [Nat.shiftRight_eq_div_pow]
    exact Nat.div_le_self _ _
  rw [show two64 = 2 ^ 64 from by norm_num [two64]] at h1 h2 ⊢
  exact Nat.xor_lt_two_pow h1 h2

theorem xxh64avalanche_lt (x : Nat) : xxh64avalanche x < two64 := by
  unfold xxh64avalanche
  exact modxor_lt _ 32

theorem xxh64_lt (seed : Nat) (input : List Nat) : xxh64 seed input < two64 := by
  unfold xxh64
  exact xxh64avalanche_lt _

/-- Written from the words of the spec (section 4.1, steps 2-3): the
normalization of the raw 64-bit hash — `0` becomes `1`, a value with the top
(sign) bit set becomes its two's-complement negation, anything else is kept. -/
def specNormalize (r : Nat) : Nat :=
  if r = 0 then 1
  else if two63 ≤ r then (two64 - r) % two64
  else r

/-- C5: for every key, `hash_key` equals the three-step normalization of the
raw `xxHash64(seed 0)` of the key's byte view — 0 is replaced by 1, a raw
value that is negative as a signed 64-bit integer is replaced by its
two's-complement negation `(2^64 - r) % 2^64`, and any other value is kept —
and in particular the result is never 0. -/
theorem c5_hash_normalization {K : Type} (ab : K → List Nat) (key : K) :
    hash_key ab key = specNormalize (xxh64 0 (ab key)) ∧ hash_key ab key ≠ 0 := by
  refine ⟨rfl, ?_⟩
  have hlt := xxh64_lt 0 (ab key)
  show specNormalize (xxh64 0 (ab key)) ≠ 0
  unfold specNormalize
  by_cases h0 : xxh64 0 (ab key) = 0
  · rw [if_pos h0]; exact one_ne_zero
  · rw [if_neg h0]
    by_cases h1 : two63 ≤ xxh64 0 (ab key)
    · rw [if_pos h1]
      have e64 : two64 = 18446744073709551616 := rfl
      have e63 : two63 = 9223372036854775808 := rfl
      rw [e64]
      rw [e64] at hlt
      rw [e63] at h1
      omega
    · rw [if_neg h1]; exact h0

/-- C6: `hash_key` on the three bytes of `"xyz"` (120, 121, 122) returns
exactly the documented constant 91681375387435871. -/
theorem c6_hash_xyz : hash_key id [120, 121, 122] = 91681375387435871 := by
  decide

/-- C7: on every map state satisfying the structural table invariant
`WeakInv` — the claim's premise (slot-array length equal to the power-of-two
capacity, with the matching mask) together with the structural Robin Hood
slot invariants that hold in every reachable such state (correct hashes,
distinct keys, reachable entries, bounded `dist`, `len` counting occupied
slots), with no constraint whatsoever on the load factor or threshold — a
completed `grow()` yields a state with exactly double the capacity, the same
load factor, the same `len`, a slot array matching the new capacity, and
exactly the same set of (key, value, hash) entries. -/
theorem c7_grow_doubles {K V : Type} [DecidableEq K] (ab : K → List Nat)
    {m m' : HashMap K V} (hW : WeakInv ab m) (hg : grow m = some m') :
    m'.capacity = 2 * m.capacity ∧ m'.load_factor = m.load_factor ∧
    m'.len = m.len ∧ m'.elems.length = m'.capacity ∧
    (∀ q v h, HasPair m'.elems q v h ↔ HasPair m.elems q v h) := by
  obtain ⟨hW', hcap, hlf, hlen, hpairs⟩ := grow_weak ab hW hg
  exact ⟨hcap, hlf, hlen, hW'.elen, hpairs⟩

/-- Default map used only as the (never-reached) fallback of `Option.getD`
in concrete witness states. -/
def fallbackMap (K V : Type) : HashMap K V :=
  { elems := []
    len := 0
    capacity := 0
    threshold := 0
    mask := 0
    load_factor := 0 }

/-- A concrete low-load-factor state for the C7 witness:
`with_capacity_and_factor(4, 10)` after one insert.  Its `len = 1` already
exceeds `threshold = 0`, so this is exactly a state on which the next insert
calls `grow`; it satisfies the structural invariant `WeakInv` but not
`Coherent` (its load factor is too small for `100 ≤ capacity · lf`). -/
def w10map : HashMap (List Nat) Nat :=
  (HashMap.insertAllFrom id
      (HashMap.with_capacity_and_factor (List Nat) Nat 4 10)
      [([1], 1)]).getD (fallbackMap (List Nat) Nat)

/-- The result of growing `w10map`. -/
def w10grown : HashMap (List Nat) Nat :=
  (grow w10map).getD (fallbackMap (List Nat) Nat)

theorem w10map_weakInv : WeakInv id w10map := by
  have hcap : w10map.capacity = 4 := by decide
  refine ⟨by decide, ?_, by decide, by decide, by decide, by decide, by decide,
    by decide, by decide⟩
  rw [hcap]
  rw [show (4 : Nat) = 2 ^ 2 from rfl, Nat.log2_two_pow]

/-- Witness for C7 at the concrete state `w10map`, a premise-satisfying state
that is not `Coherent` and on which the program's next insert runs `grow`. -/
theorem c7_grow_doubles_witness :
    WeakInv id w10map ∧ grow w10map = some w10grown ∧
    (w10grown.capacity = 2 * w10map.capacity ∧
     w10grown.load_factor = w10map.load_factor ∧
     w10grown.len = w10map.len ∧ w10grown.elems.length = w10grown.capacity ∧
     (∀ q v h, HasPair w10grown.elems q v h ↔ HasPair w10map.elems q v h)) :=
  ⟨w10map_weakInv, rfl, c7_grow_doubles id w10map_weakInv rfl⟩

/-- C8: for every sequence of inserts on `new()` that completes, `len` equals
the number of distinct keys inserted, and one further completed insert leaves
`len` unchanged when the key is already present and increments it by exactly
one when it is fresh. -/
theorem c8_len_distinct {V : Type} (ops : List (List Nat × V)) :
    (HashMap.insertAllFrom id (HashMap.new (List Nat) V) ops).elim True
      (fun m => m.len = (ops.map Prod.fst).dedup.length ∧
        ∀ k v, (HashMap.insert id m k v).elim True (fun m2 =>
          if k ∈ ops.map Prod.fst then m2.len = m.len
          else m2.len = m.len + 1)) := by
  cases hs : HashMap.insertAllFrom id (HashMap.new (List Nat) V) ops with
  | none => exact trivial
  | some m =>
    obtain ⟨hC, hmodel, hlen⟩ := insertAllFrom_spec id 256 90 8 (by norm_num)
      (by omega) (by omega) (by norm_num) ops hs
    refine ⟨hlen, ?_⟩
    intro k v
    cases hins : HashMap.insert id m k v with
    | none => exact trivial
    | some m2 =>
      obtain ⟨_, _, hP, hA⟩ := insert_spec id hC hins
      show if k ∈ ops.map Prod.fst then m2.len = m.len else m2.len = m.len + 1
      by_cases hmem : k ∈ ops.map Prod.fst
      · rw [if_pos hmem]
        obtain ⟨v0, hv0⟩ := lastVal_isSome_of_mem hmem
        obtain ⟨h0, hp0⟩ := (hmodel k v0).mpr hv0
        exact hP ⟨v0, h0, hp0⟩
      · rw [if_neg hmem]
        apply hA
        rintro ⟨v0, h0, hp0⟩
        have hlv := (hmodel k v0).mp ⟨h0, hp0⟩
        rw [lastVal_none_of_not_mem hmem] at hlv
        exact Option.noConfusion hlv

/-- C9: on every state whose geometry is well-formed (power-of-two capacity,
slot array of that length, `mask = capacity - 1`) and whose slot array has at
least one empty slot, the probe loop of `insert_raw` terminates within at
most `capacity` iterations — `insert_raw` run with fuel `capacity` returns a
result. -/
theorem c9_probe_terminates {K V : Type} [DecidableEq K] (m : HashMap K V)
    (w : Nat) (hcap : m.capacity = 2 ^ w) (hlen : m.elems.length = m.capacity)
    (hmask : m.mask = m.capacity - 1)
    (hempty : ∃ i, i < m.capacity ∧ m.elems.getD i none = none)
    (hsh : Nat) (k : K) (v : V) :
    (insert_raw m hsh k v).isSome = true := by
  obtain ⟨i, hi, hiE⟩ := hempty
  unfold insert_raw
  rw [Option.isSome_map', hmask]
  have hclt : 0 < m.capacity := cap_pos hcap
  refine insert_raw_loop_total hcap m.capacity m.elems (hsh &&& (m.capacity - 1))
    0 ⟨0, k, v, hsh⟩ hlen
    ⟨(i + m.capacity - (hsh &&& (m.capacity - 1))) % m.capacity,
      Nat.mod_lt _ hclt, ?_⟩
  have hposlt : hsh &&& (m.capacity - 1) < m.capacity := by
    rw [land_mask hcap]
    exact Nat.mod_lt _ hclt
  have hk2 : ((hsh &&& (m.capacity - 1)) +
      (i + m.capacity - (hsh &&& (m.capacity - 1))) % m.capacity) % m.capacity
      = i := by
    rw [Nat.add_mod_mod]
    rw [show (hsh &&& (m.capacity - 1)) +
        (i + m.capacity - (hsh &&& (m.capacity - 1))) = i + m.capacity by omega]
    rw [Nat.add_mod_right]
    exact Nat.mod_eq_of_lt hi
  rw [hk2]
  exact hiE

/-- A concrete empty capacity-4 state for the C9 witness. -/
def c9map : HashMap (List Nat) Nat :=
  (HashMap.with_capacity_and_factor (List Nat) Nat 4 90).getD
    (fallbackMap (List Nat) Nat)

/-- Witness for C9 at the concrete empty capacity-4 state. -/
theorem c9_probe_terminates_witness :
    (c9map.capacity = 2 ^ 2 ∧ c9map.elems.length = c9map.capacity ∧
     c9map.mask = c9map.capacity - 1 ∧
     (∃ i, i < c9map.capacity ∧ c9map.elems.getD i none = none)) ∧
    (insert_raw c9map 7 [1] 5).isSome = true :=
  ⟨⟨by decide, by decide, by decide, ⟨0, by decide, rfl⟩⟩,
   c9_probe_terminates c9map 2 (by decide) (by decide) (by decide)
     ⟨0, by decide, rfl⟩ 7 [1] 5⟩

/-- C10: for any two map states identical except for the cached `dist` fields
of their occupied slots, `get` and `get_mut` return identical results, and
`insert` of the same key and value yields states that again agree everywhere
except possibly on `dist` fields (equal under `stripMap`, which erases the
`dist` fields). -/
theorem c10_dist_irrelevant {K V : Type} [DecidableEq K] (ab : K → List Nat)
    (m1 m2 : HashMap K V) (h : SameUpToDist m1 m2) (k : K) (v : V) :
    HashMap.get ab m1 k = HashMap.get ab m2 k ∧
    HashMap.get_mut ab m1 k = HashMap.get_mut ab m2 k ∧
    (HashMap.insert ab m1 k v).map stripMap
      = (HashMap.insert ab m2 k v).map stripMap :=
  ⟨get_congr ab h k, get_mut_congr ab h k, insert_congr ab h k v⟩

/-- First concrete state for the C10 witness: one entry with `dist = 0`. -/
def c10m1 : HashMap (List Nat) Nat :=
  { elems := [none, some ⟨0, [1], 5, 1⟩, none, none]
    len := 1
    capacity := 4
    threshold := 3
    mask := 3
    load_factor := 90 }

/-- Second concrete state for the C10 witness: identical to `c10m1` except
the entry's `dist` field is 7. -/
def c10m2 : HashMap (List Nat) Nat :=
  { elems := [none, some ⟨7, [1], 5, 1⟩, none, none]
    len := 1
    capacity := 4
    threshold := 3
    mask := 3
    load_factor := 90 }

/-- Witness for C10 at two concrete states differing only in a `dist` field. -/
theorem c10_dist_irrelevant_witness :
    SameUpToDist c10m1 c10m2 ∧
    (HashMap.get id c10m1 [1] = HashMap.get id c10m2 [1] ∧
     HashMap.get_mut id c10m1 [1] = HashMap.get_mut id c10m2 [1] ∧
     (HashMap.insert id c10m1 [1] 9).map stripMap
       = (HashMap.insert id c10m2 [1] 9).map stripMap) :=
  ⟨⟨rfl, rfl, rfl, rfl, rfl, rfl⟩,
   c10_dist_irrelevant id c10m1 c10m2 ⟨rfl, rfl, rfl, rfl, rfl, rfl⟩ [1] 9⟩

end ClaimsB

end Rhh
